import Mathlib

/-!
Verification of the CST tree visitor and the streaming composer of a
loss-preserving YAML-like parser/serializer.

Part A embeds the path-addressed tree visitor (`visit`, `_visit`,
`visit.itemAtPath`, `visit.parentCollection`).  Part B embeds the stream
composer (`Composer.next`, `Composer.end`, `Composer.decorate`,
`parsePrelude`, `getErrorPos`) and the document assembler (`composeDoc`).

Machine integers do not occur; JavaScript array indices are modelled as
`Nat` (with the one `Int` exception for the visitor's numeric return value,
which the source lets jump the cursor anywhere).  Mutation of the token
tree is modelled by threading the updated values; the `_visit` recursion is
fueled because a visitor that keeps returning an old index never
terminates in the source either.
-/

namespace YamlCst

/-- The two item fields a visit path may step through. -/
inductive VField where
  | key
  | value
deriving DecidableEq, Repr

/-- One step of a `VisitPath`: a `['key' | 'value', number]` tuple. -/
abbrev Step := VField × Nat

/-- `VisitPath`: the steps from the root to the current node. -/
abbrev VisitPath := List Step

mutual
/-- A CST token as seen by the visitor: either a non-collection token
(scalar, source token, …; carrying an identifying tag) or a collection
token, i.e. one with an `items` list. -/
inductive VToken where
  | scalar : Nat → VToken
  | coll : List VItem → VToken

/-- A `CollectionItem`: an id (to observe visit counts), an optional `key`
token and an optional `value` token.  The decorative `start`/`sep` token
lists play no role in traversal and are omitted. -/
inductive VItem where
  | mk : Nat → Option VToken → Option VToken → VItem
end

/-- Identifier of an item. -/
def VItem.id : VItem → Nat
  | .mk i _ _ => i

/-- The `key` token of an item. -/
def VItem.key : VItem → Option VToken
  | .mk _ k _ => k

/-- The `value` token of an item. -/
def VItem.value : VItem → Option VToken
  | .mk _ _ v => v

/-- `item[field]` lookup. -/
def VItem.get : VItem → VField → Option VToken
  | .mk _ k _, .key => k
  | .mk _ _ v, .value => v

/-- Replace a field of an item. -/
def VItem.set : VItem → VField → Option VToken → VItem
  | .mk i _ v, .key, t => .mk i t v
  | .mk i k _, .value, t => .mk i k t

/-- The root argument of `visit`: a CST `Document` (with its `value`
token) or a bare `CollectionItem`. -/
inductive VRoot where
  | doc : Nat → Option VToken → VRoot
  | item : VItem → VRoot

/-- Duck-typed field access on a root: a document has no `key` property
and its `value` property is the document value. -/
def VRoot.get : VRoot → VField → Option VToken
  | .doc _ v, .value => v
  | .doc _ _, .key => none
  | .item it, f => it.get f

/-- The return value of a visitor callback:
`undefined | BREAK | SKIP | REMOVE | number | a new visitor`. -/
inductive VRet (V : Type) where
  | undef
  | brk
  | skip
  | remove
  | num : Int → VRet V
  | fn : V → VRet V

/-- A visitor callback; returning `.fn` yields the continuation visitor
for the current item. -/
inductive Visitor where
  | mk : (VItem → VisitPath → VRet Visitor) → Visitor

/-- Invoke a visitor. -/
def Visitor.run : Visitor → VItem → VisitPath → VRet Visitor
  | .mk f => f

/-- Log of visitor entry invocations: `(item id, path)` per call. -/
abbrev VLog := List (Nat × VisitPath)

/-- The exit of `_visit`:
`return typeof ctrl === 'function' ? ctrl(item, path) : ctrl`. -/
def finishItem (path : VisitPath) (item : VItem) (ctrl : VRet Visitor)
    (acc : VLog) : Option (VItem × VRet Visitor × VLog) :=
  match ctrl with
  | .fn g => some (item, g.run item path, acc)
  | _ => some (item, ctrl, acc)

mutual
/-- `_visit(path, item, visitor)` from the source, with the tree threaded
functionally and a log of entry invocations.  `none` means the fuel ran
out (or a negative cursor was set, which in the source dereferences an
undefined item and crashes). -/
def visitNode (fuel : Nat) (path : VisitPath) (item : VItem)
    (visitor : Visitor) : Option (VItem × VRet Visitor × VLog) :=
  match fuel with
  | 0 => none
  | fuel + 1 =>
    let ctrl := visitor.run item path
    let log0 : VLog := [(item.id, path)]
    match ctrl with
    | .brk => some (item, .brk, log0)
    | .skip => some (item, .skip, log0)
    | .remove => some (item, .remove, log0)
    | _ =>
      match item.key with
      | some (.coll kitems) =>
        match visitList fuel path .key kitems 0 visitor with
        | none => none
        | some (kitems', kbrk, klog) =>
          let item1 := item.set .key (some (.coll kitems'))
          if kbrk then some (item1, .brk, log0 ++ klog)
          else
            match ctrl with
            | .fn v =>
              visitValue fuel path item1 (v.run item1 path) visitor
                (log0 ++ klog)
            | _ => visitValue fuel path item1 ctrl visitor (log0 ++ klog)
      | _ => visitValue fuel path item ctrl visitor log0

/-- The `value`-field half of `_visit`, followed by the exit call of a
pending continuation visitor. -/
def visitValue (fuel : Nat) (path : VisitPath) (item : VItem)
    (ctrl : VRet Visitor) (visitor : Visitor) (acc : VLog) :
    Option (VItem × VRet Visitor × VLog) :=
  match fuel with
  | 0 => none
  | fuel + 1 =>
    match item.value with
    | some (.coll vitems) =>
      match visitList fuel path .value vitems 0 visitor with
      | none => none
      | some (vitems', vbrk, vlog) =>
        let item2 := item.set .value (some (.coll vitems'))
        if vbrk then some (item2, .brk, acc ++ vlog)
        else finishItem path item2 ctrl (acc ++ vlog)
    | _ => finishItem path item ctrl acc

/-- The per-field items loop of `_visit`: visits `items` from index `i`,
handling numeric cursor reassignment, `BREAK` propagation and `REMOVE`
splicing.  Returns the (possibly shortened) list, whether a `BREAK`
aborted the loop, and the log. -/
def visitList (fuel : Nat) (path : VisitPath) (field : VField)
    (items : List VItem) (i : Nat) (visitor : Visitor) :
    Option (List VItem × Bool × VLog) :=
  match fuel with
  | 0 => none
  | fuel + 1 =>
    if h : i < items.length then
      match visitNode fuel (path ++ [(field, i)]) items[i] visitor with
      | none => none
      | some (it', ci, clog) =>
        let items1 := items.set i it'
        match ci with
        | .num n =>
          if n < 0 then none
          else
            match visitList fuel path field items1 n.toNat visitor with
            | none => none
            | some (r, b, l) => some (r, b, clog ++ l)
        | .brk => some (items1, true, clog)
        | .remove =>
          match visitList fuel path field (items1.eraseIdx i) i visitor with
          | none => none
          | some (r, b, l) => some (r, b, clog ++ l)
        | _ =>
          match visitList fuel path field items1 (i + 1) visitor with
          | none => none
          | some (r, b, l) => some (r, b, clog ++ l)
    else
      some (items, false, [])
end

/-- The synthetic item `visit` builds for a document root
(`{ start: cst.start, value: cst.value }`, with no `key`), and the
identity on a bare item root. -/
def rootToItem : VRoot → VItem
  | .doc i v => .mk i none v
  | .item it => it

/-- Rebuild the root from the traversed item: mutations of a document's
value token are visible through the shared reference. -/
def itemToRoot : VRoot → VItem → VRoot
  | .doc i _, it => .doc i it.value
  | .item _, it => .item it

/-- `visit(cst, visitor)`: unwraps a document root into a synthetic item,
runs `_visit` with the empty frozen path, and returns no control value
(the source function is `void`); the updated tree and the invocation log
are the observable outcome. -/
def visit (fuel : Nat) (cst : VRoot) (visitor : Visitor) :
    Option (VRoot × VLog) :=
  match visitNode fuel [] (rootToItem cst) visitor with
  | none => none
  | some (it', _, log) => some (itemToRoot cst it', log)

/-- `visit.itemAtPath(cst, path)`: resolve a path by repeatedly descending
into `item[field].items[index]`; `none` the first time a step's token is
missing, not a collection, or the index is out of range. -/
def itemAtPath (cst : VRoot) (path : VisitPath) : Option VRoot :=
  match path with
  | [] => some cst
  | (field, index) :: rest =>
    match cst.get field with
    | some (.coll items) =>
      match items[index]? with
      | some it => itemAtPath (.item it) rest
      | none => none
    | _ => none

/-- How `visit.parentCollection` can fail: `typeError` models the
JavaScript `TypeError` raised by `path[path.length - 1][0]` on an empty
path; `notFound` models `throw new Error('Parent collection not found')`. -/
inductive PCErr where
  | typeError
  | notFound
deriving DecidableEq, Repr

/-- `visit.parentCollection(cst, path)`: resolve the parent via
`itemAtPath(cst, path.slice(0, -1))`, then return the collection token at
the last step's field, failing with the structural-invariant error if it
is absent or not a collection. -/
def parentCollection (cst : VRoot) (path : VisitPath) :
    Except PCErr VToken :=
  let parent := itemAtPath cst path.dropLast
  match path.getLast? with
  | none => .error .typeError
  | some (field, _) =>
    match parent >>= (fun p => p.get field) with
    | some (.coll items) => .ok (.coll items)
    | _ => .error .notFound

/-! ### Specification-side enumerations of a tree -/

mutual
/-- The depth-first enumeration of a subtree: entry first, then the
`key`-collection children, then the `value`-collection children. -/
def dfsNode (path : VisitPath) : VItem → VLog
  | .mk i k v =>
    (i, path) :: (dfsField path .key k ++ dfsField path .value v)

/-- Depth-first enumeration of one field of an item. -/
def dfsField (path : VisitPath) (field : VField) : Option VToken → VLog
  | some (.coll items) => dfsList path field items 0
  | some (.scalar _) => []
  | none => []

/-- Depth-first enumeration of a list of items, numbering from `i`. -/
def dfsList (path : VisitPath) (field : VField) :
    List VItem → Nat → VLog
  | [], _ => []
  | it :: rest, i =>
    dfsNode (path ++ [(field, i)]) it ++ dfsList path field rest (i + 1)
end

mutual
/-- All items of a subtree, the root item included, in depth-first order. -/
def subItemsI : VItem → List VItem
  | .mk i k v => .mk i k v :: (subItemsT k ++ subItemsT v)

/-- All items below an optional token. -/
def subItemsT : Option VToken → List VItem
  | some (.coll items) => subItemsL items
  | some (.scalar _) => []
  | none => []

/-- All items below a list of items. -/
def subItemsL : List VItem → List VItem
  | [] => []
  | it :: rest => subItemsI it ++ subItemsL rest
end

/-- The ids of all items of a subtree. -/
def allIdsI (item : VItem) : List Nat := (subItemsI item).map VItem.id

/-- The ids of all items below a list of items. -/
def allIdsL (items : List VItem) : List Nat := (subItemsL items).map VItem.id

mutual
/-- An upper bound for the fuel `visitNode` consumes on a subtree when the
visitor never reassigns the cursor. -/
def costNode : VItem → Nat
  | .mk _ k v => 2 + costField k + costField v

/-- Fuel bound for one field. -/
def costField : Option VToken → Nat
  | some (.coll items) => costList items
  | some (.scalar _) => 0
  | none => 0

/-- Fuel bound for an items loop. -/
def costList : List VItem → Nat
  | [] => 1
  | it :: rest => 1 + costNode it + costList rest
end

/-! ### Small list helpers -/

theorem set_self_of_getElem? {α : Type} (l : List α) (i : Nat) (a : α)
    (h : l[i]? = some a) : l.set i a = l := by
  induction l generalizing i with
  | nil => simp at h
  | cons x xs ih =>
    cases i with
    | zero => simp at h; simp [h]
    | succ j => simp at h; simp [List.set, ih j h]

theorem drop_set_of_lt' {α : Type} (l : List α) (i j : Nat) (a : α)
    (h : i < j) : (l.set i a).drop j = l.drop j := by
  induction l generalizing i j with
  | nil => simp
  | cons x xs ih =>
    cases i with
    | zero =>
      cases j with
      | zero => omega
      | succ j' => simp [List.set]
    | succ i' =>
      cases j with
      | zero => omega
      | succ j' => simpa [List.set] using ih i' j' (by omega)

theorem drop_eraseIdx_self {α : Type} (l : List α) (j : Nat) :
    (l.eraseIdx j).drop j = l.drop (j + 1) := by
  induction l generalizing j with
  | nil => simp
  | cons x xs ih =>
    cases j with
    | zero => simp
    | succ j' => simpa using ih j'

theorem getElem?_eraseIdx_self {α : Type} (l : List α) (j : Nat) :
    (l.eraseIdx j)[j]? = l[j + 1]? := by
  induction l generalizing j with
  | nil => simp
  | cons x xs ih =>
    cases j with
    | zero => simp
    | succ j' => simpa using ih j'

theorem drop_succ_subset {α : Type} (l : List α) (i : Nat) :
    l.drop (i + 1) ⊆ l.drop i := by
  intro a ha
  have : l.drop (i + 1) = (l.drop i).drop 1 := by
    rw [List.drop_drop, Nat.add_comm]
  rw [this] at ha
  exact List.mem_of_mem_drop ha

/-! ### Decomposition lemmas for the enumerations -/

theorem subItemsT_none : subItemsT none = [] := rfl

theorem subItemsT_scalar (n : Nat) : subItemsT (some (.scalar n)) = [] := rfl

theorem subItemsT_coll (items : List VItem) :
    subItemsT (some (.coll items)) = subItemsL items := rfl

theorem subItemsL_cons (it : VItem) (rest : List VItem) :
    subItemsL (it :: rest) = subItemsI it ++ subItemsL rest := rfl

theorem subItemsI_def (i : Nat) (k v : Option VToken) :
    subItemsI (.mk i k v) = .mk i k v :: (subItemsT k ++ subItemsT v) := rfl

theorem self_mem_subItemsI (it : VItem) : it ∈ subItemsI it := by
  cases it; simp [subItemsI_def]

theorem subItemsL_append (a b : List VItem) :
    subItemsL (a ++ b) = subItemsL a ++ subItemsL b := by
  induction a with
  | nil => simp [subItemsL]
  | cons x xs ih => simp [subItemsL_cons, ih]

theorem subItemsI_subset_subItemsL {it : VItem} {items : List VItem}
    (h : it ∈ items) : subItemsI it ⊆ subItemsL items := by
  induction items with
  | nil => simp at h
  | cons x xs ih =>
    rw [subItemsL_cons]
    rcases List.mem_cons.mp h with h | h
    · subst h; exact List.subset_append_left _ _
    · exact (ih h).trans (List.subset_append_right _ _)

theorem allIdsI_def (i : Nat) (k v : Option VToken) :
    allIdsI (.mk i k v) =
      i :: ((subItemsT k).map VItem.id ++ (subItemsT v).map VItem.id) := by
  simp [allIdsI, subItemsI_def, VItem.id]

theorem allIdsL_cons (it : VItem) (rest : List VItem) :
    allIdsL (it :: rest) = allIdsI it ++ allIdsL rest := by
  simp [allIdsL, allIdsI, subItemsL_cons]

theorem allIdsL_append (a b : List VItem) :
    allIdsL (a ++ b) = allIdsL a ++ allIdsL b := by
  simp [allIdsL, subItemsL_append]

theorem self_id_mem_allIdsI (it : VItem) : it.id ∈ allIdsI it :=
  List.mem_map_of_mem VItem.id (self_mem_subItemsI it)

theorem id_mem_allIdsI {sub it : VItem} (h : sub ∈ subItemsI it) :
    sub.id ∈ allIdsI it := List.mem_map_of_mem VItem.id h

theorem allIdsI_subset_allIdsL {it : VItem} {items : List VItem}
    (h : it ∈ items) : allIdsI it ⊆ allIdsL items :=
  List.map_subset VItem.id (subItemsI_subset_subItemsL h)

/-! ### `itemAtPath` on items, and its relation to the root version -/

/-- Path resolution below a bare item: the loop body of `itemAtPath` once
the root has been passed. -/
def itemAtPathI (item : VItem) : VisitPath → Option VItem
  | [] => some item
  | (field, index) :: rest =>
    match item.get field with
    | some (.coll items) =>
      match items[index]? with
      | some it => itemAtPathI it rest
      | none => none
    | _ => none

theorem itemAtPath_item (it : VItem) (q : VisitPath) :
    itemAtPath (.item it) q = (itemAtPathI it q).map VRoot.item := by
  induction q generalizing it with
  | nil => rfl
  | cons s rest ih =>
    obtain ⟨f, j⟩ := s
    rw [itemAtPath, itemAtPathI]
    show (match it.get f with
      | some (.coll items) =>
        match items[j]? with
        | some it' => itemAtPath (.item it') rest
        | none => none
      | _ => none) = _
    cases hg : it.get f with
    | none => simp
    | some t =>
      cases t with
      | scalar n => simp
      | coll items =>
        cases hj : items[j]? with
        | none => simp [hj]
        | some it' => simp only [hj]; simpa using ih it'

theorem VRoot_get_rootToItem (cst : VRoot) (f : VField) :
    cst.get f = (rootToItem cst).get f := by
  cases cst with
  | doc i v => cases f <;> rfl
  | item it => rfl

theorem itemAtPath_nonempty (cst : VRoot) (s : Step) (q : VisitPath) :
    itemAtPath cst (s :: q) =
      (itemAtPathI (rootToItem cst) (s :: q)).map VRoot.item := by
  obtain ⟨f, j⟩ := s
  rw [itemAtPath, itemAtPathI, ← VRoot_get_rootToItem]
  cases hg : cst.get f with
  | none => simp
  | some t =>
    cases t with
    | scalar n => simp
    | coll items =>
      cases hj : items[j]? with
      | none => simp [hj]
      | some it' => simp only [hj]; simpa using itemAtPath_item it' q

theorem itemAtPathI_mem {a b : VItem} {p : VisitPath}
    (h : itemAtPathI a p = some b) : b ∈ subItemsI a := by
  induction p generalizing a with
  | nil =>
    simp [itemAtPathI] at h
    subst h
    exact self_mem_subItemsI _
  | cons s rest ih =>
    obtain ⟨f, j⟩ := s
    rw [itemAtPathI] at h
    split at h
    case h_2 => cases h
    case h_1 items ha =>
      split at h
      case h_2 => cases h
      case h_1 it' hj =>
          have hmem : it' ∈ items := List.getElem?_mem hj
          have hsub : subItemsI it' ⊆ subItemsI a := by
            cases a with
            | mk i k v =>
              have hl : subItemsL items ⊆ subItemsI (VItem.mk i k v) := by
                rw [subItemsI_def]
                cases f with
                | key =>
                  cases k with
                  | none => simp [VItem.get] at ha
                  | some kt =>
                    simp [VItem.get] at ha
                    subst ha
                    rw [subItemsT_coll]
                    exact fun x hx =>
                      List.mem_cons_of_mem _ (List.mem_append_left _ hx)
                | value =>
                  cases v with
                  | none => simp [VItem.get] at ha
                  | some vt =>
                    simp [VItem.get] at ha
                    subst ha
                    rw [subItemsT_coll]
                    exact fun x hx =>
                      List.mem_cons_of_mem _ (List.mem_append_right _ hx)
              exact (subItemsI_subset_subItemsL hmem).trans hl
          exact hsub (ih h)

theorem itemAtPathI_append_single (a : VItem) (q : VisitPath) (f : VField)
    (j : Nat) :
    itemAtPathI a (q ++ [(f, j)]) =
      (itemAtPathI a q).bind (fun b =>
        match b.get f with
        | some (.coll l) => l[j]?
        | _ => none) := by
  induction q generalizing a with
  | nil =>
    show itemAtPathI a [(f, j)] = _
    cases hg : a.get f with
    | none => simp [itemAtPathI, hg]
    | some t =>
      cases t with
      | scalar n => simp [itemAtPathI, hg]
      | coll items =>
        cases hj : items[j]? with
        | none => simp [itemAtPathI, hg, hj]
        | some it' => simp [itemAtPathI, hg, hj]
  | cons s rest ih =>
    obtain ⟨g, m⟩ := s
    rw [List.cons_append, itemAtPathI]
    rw [itemAtPathI]
    cases hg : a.get g with
    | none => simp
    | some t =>
      cases t with
      | scalar n => simp
      | coll items =>
        cases hm : items[m]? with
        | none => simp [hm]
        | some it' => simp only [hm]; simpa using ih it'

/-! ### Equation-style lemmas for the enumerations and costs -/

theorem dfsNode_def (path : VisitPath) (i : Nat) (k v : Option VToken) :
    dfsNode path (.mk i k v) =
      (i, path) :: (dfsField path .key k ++ dfsField path .value v) := by
  rw [dfsNode]

theorem dfsField_none (path : VisitPath) (f : VField) :
    dfsField path f none = [] := by rw [dfsField]

theorem dfsField_scalar (path : VisitPath) (f : VField) (n : Nat) :
    dfsField path f (some (.scalar n)) = [] := by rw [dfsField]

theorem dfsField_coll (path : VisitPath) (f : VField) (items : List VItem) :
    dfsField path f (some (.coll items)) = dfsList path f items 0 := by
  rw [dfsField]

theorem dfsList_nil (path : VisitPath) (f : VField) (i : Nat) :
    dfsList path f [] i = [] := by rw [dfsList]

theorem dfsList_cons (path : VisitPath) (f : VField) (it : VItem)
    (rest : List VItem) (i : Nat) :
    dfsList path f (it :: rest) i =
      dfsNode (path ++ [(f, i)]) it ++ dfsList path f rest (i + 1) := by
  rw [dfsList]

theorem costNode_def (i : Nat) (k v : Option VToken) :
    costNode (.mk i k v) = 2 + costField k + costField v := by rw [costNode]

theorem costField_none : costField none = 0 := by rw [costField]

theorem costField_scalar (n : Nat) : costField (some (.scalar n)) = 0 := by
  rw [costField]

theorem costField_coll (items : List VItem) :
    costField (some (.coll items)) = costList items := by rw [costField]

theorem costList_nil : costList [] = 1 := by rw [costList]

theorem costList_cons (it : VItem) (rest : List VItem) :
    costList (it :: rest) = 1 + costNode it + costList rest := by
  rw [costList]

theorem costNode_pos (it : VItem) : 2 ≤ costNode it := by
  cases it; rw [costNode_def]; omega

theorem costList_pos (l : List VItem) : 1 ≤ costList l := by
  cases l with
  | nil => rw [costList_nil]
  | cons x xs => rw [costList_cons]; omega

/-! ### Single-step reduction lemmas for the traversal -/

theorem visitNode_symb (f : Nat) (path : VisitPath) (item : VItem)
    (v : Visitor) (r : VRet Visitor)
    (h : v.run item path = r)
    (hr : r = .brk ∨ r = .skip ∨ r = .remove) :
    visitNode (f + 1) path item v = some (item, r, [(item.id, path)]) := by
  rw [visitNode]
  rcases hr with hr | hr | hr <;> subst hr <;> simp [h]

theorem visitNode_keyNone (f : Nat) (path : VisitPath) (i : Nat)
    (w : Option VToken) (v : Visitor) (c : VRet Visitor)
    (h : v.run (.mk i none w) path = c)
    (hc : c = .undef ∨ (∃ n, c = .num n) ∨ (∃ g, c = .fn g)) :
    visitNode (f + 1) path (.mk i none w) v =
      visitValue f path (.mk i none w) c v [(i, path)] := by
  rw [visitNode]
  rcases hc with hc | ⟨n, hc⟩ | ⟨g, hc⟩ <;> subst hc <;>
    simp [h, VItem.key, VItem.id]

theorem visitNode_keyScalar (f : Nat) (path : VisitPath) (i m : Nat)
    (w : Option VToken) (v : Visitor) (c : VRet Visitor)
    (h : v.run (.mk i (some (.scalar m)) w) path = c)
    (hc : c = .undef ∨ (∃ n, c = .num n) ∨ (∃ g, c = .fn g)) :
    visitNode (f + 1) path (.mk i (some (.scalar m)) w) v =
      visitValue f path (.mk i (some (.scalar m)) w) c v [(i, path)] := by
  rw [visitNode]
  rcases hc with hc | ⟨n, hc⟩ | ⟨g, hc⟩ <;> subst hc <;>
    simp [h, VItem.key, VItem.id]

theorem visitNode_keyColl_undef (f : Nat) (path : VisitPath) (i : Nat)
    (kitems ks : List VItem) (w : Option VToken) (v : Visitor)
    (klog : VLog)
    (h : v.run (.mk i (some (.coll kitems)) w) path = .undef)
    (hk : visitList f path .key kitems 0 v = some (ks, false, klog)) :
    visitNode (f + 1) path (.mk i (some (.coll kitems)) w) v =
      visitValue f path (.mk i (some (.coll ks)) w) .undef v
        ((i, path) :: klog) := by
  rw [visitNode]
  simp [h, hk, VItem.key, VItem.id, VItem.set]

theorem visitNode_keyColl_fn (f : Nat) (path : VisitPath) (i : Nat)
    (kitems ks : List VItem) (w : Option VToken) (v g : Visitor)
    (klog : VLog)
    (h : v.run (.mk i (some (.coll kitems)) w) path = .fn g)
    (hk : visitList f path .key kitems 0 v = some (ks, false, klog)) :
    visitNode (f + 1) path (.mk i (some (.coll kitems)) w) v =
      visitValue f path (.mk i (some (.coll ks)) w)
        (g.run (.mk i (some (.coll ks)) w) path) v ((i, path) :: klog) := by
  rw [visitNode]
  simp [h, hk, VItem.key, VItem.id, VItem.set]

theorem visitNode_keyColl_brk (f : Nat) (path : VisitPath) (i : Nat)
    (kitems ks : List VItem) (w : Option VToken) (v : Visitor)
    (klog : VLog) (c : VRet Visitor)
    (h : v.run (.mk i (some (.coll kitems)) w) path = c)
    (hc : c = .undef ∨ (∃ n, c = .num n) ∨ (∃ g, c = .fn g))
    (hk : visitList f path .key kitems 0 v = some (ks, true, klog)) :
    visitNode (f + 1) path (.mk i (some (.coll kitems)) w) v =
      some (.mk i (some (.coll ks)) w, .brk, (i, path) :: klog) := by
  rw [visitNode]
  rcases hc with hc | ⟨n, hc⟩ | ⟨g, hc⟩ <;> subst hc <;>
    simp [h, hk, VItem.key, VItem.id, VItem.set]

theorem visitValue_valNone (f : Nat) (path : VisitPath) (i : Nat)
    (k : Option VToken) (v : Visitor) (c : VRet Visitor) (acc : VLog)
    (hc : ∀ g, c ≠ .fn g) :
    visitValue (f + 1) path (.mk i k none) c v acc =
      some (.mk i k none, c, acc) := by
  rw [visitValue]
  cases c with
  | fn g => exact absurd rfl (hc g)
  | _ => simp [VItem.value, finishItem]

theorem visitValue_valScalar (f : Nat) (path : VisitPath) (i m : Nat)
    (k : Option VToken) (v : Visitor) (c : VRet Visitor) (acc : VLog)
    (hc : ∀ g, c ≠ .fn g) :
    visitValue (f + 1) path (.mk i k (some (.scalar m))) c v acc =
      some (.mk i k (some (.scalar m)), c, acc) := by
  rw [visitValue]
  cases c with
  | fn g => exact absurd rfl (hc g)
  | _ => simp [VItem.value, finishItem]

theorem visitValue_valNone_fn (f : Nat) (path : VisitPath) (i : Nat)
    (k : Option VToken) (v g : Visitor) (acc : VLog) :
    visitValue (f + 1) path (.mk i k none) (.fn g) v acc =
      some (.mk i k none, g.run (.mk i k none) path, acc) := by
  rw [visitValue]
  simp [VItem.value, finishItem]

theorem visitValue_valColl (f : Nat) (path : VisitPath) (i : Nat)
    (k : Option VToken) (vitems vs : List VItem) (v : Visitor)
    (c : VRet Visitor) (acc vlog : VLog)
    (hc : ∀ g, c ≠ .fn g)
    (hv : visitList f path .value vitems 0 v = some (vs, false, vlog)) :
    visitValue (f + 1) path (.mk i k (some (.coll vitems))) c v acc =
      some (.mk i k (some (.coll vs)), c, acc ++ vlog) := by
  rw [visitValue]
  cases c with
  | fn g => exact absurd rfl (hc g)
  | _ => simp [VItem.value, VItem.set, finishItem, hv]

theorem visitValue_valColl_fn (f : Nat) (path : VisitPath) (i : Nat)
    (k : Option VToken) (vitems vs : List VItem) (v g : Visitor)
    (acc vlog : VLog)
    (hv : visitList f path .value vitems 0 v = some (vs, false, vlog)) :
    visitValue (f + 1) path (.mk i k (some (.coll vitems))) (.fn g) v acc =
      some (.mk i k (some (.coll vs)),
        g.run (.mk i k (some (.coll vs))) path, acc ++ vlog) := by
  rw [visitValue]
  simp [VItem.value, VItem.set, finishItem, hv]

theorem visitValue_valColl_brk (f : Nat) (path : VisitPath) (i : Nat)
    (k : Option VToken) (vitems vs : List VItem) (v : Visitor)
    (c : VRet Visitor) (acc vlog : VLog)
    (hv : visitList f path .value vitems 0 v = some (vs, true, vlog)) :
    visitValue (f + 1) path (.mk i k (some (.coll vitems))) c v acc =
      some (.mk i k (some (.coll vs)), .brk, acc ++ vlog) := by
  rw [visitValue.eq_def]
  cases c <;> simp [VItem.value, VItem.set, hv]

theorem visitList_stop (f : Nat) (path : VisitPath) (field : VField)
    (items : List VItem) (i : Nat) (v : Visitor)
    (h : ¬ i < items.length) :
    visitList (f + 1) path field items i v = some (items, false, []) := by
  rw [visitList]
  simp [h]

theorem visitList_step (f : Nat) (path : VisitPath) (field : VField)
    (items : List VItem) (i : Nat) (v : Visitor) (it' : VItem)
    (c : VRet Visitor) (clog l : VLog) (r : List VItem) (b : Bool)
    (h : i < items.length)
    (hc : c = .undef ∨ c = .skip ∨ (∃ g, c = .fn g))
    (hn : visitNode f (path ++ [(field, i)]) items[i] v = some (it', c, clog))
    (hrec : visitList f path field (items.set i it') (i + 1) v =
      some (r, b, l)) :
    visitList (f + 1) path field items i v = some (r, b, clog ++ l) := by
  rw [visitList]
  rcases hc with hc | hc | ⟨g, hc⟩ <;> subst hc <;> simp [h, hn, hrec]

theorem visitList_step_remove (f : Nat) (path : VisitPath) (field : VField)
    (items : List VItem) (i : Nat) (v : Visitor) (it' : VItem)
    (clog l : VLog) (r : List VItem) (b : Bool)
    (h : i < items.length)
    (hn : visitNode f (path ++ [(field, i)]) items[i] v =
      some (it', .remove, clog))
    (hrec : visitList f path field ((items.set i it').eraseIdx i) i v =
      some (r, b, l)) :
    visitList (f + 1) path field items i v = some (r, b, clog ++ l) := by
  rw [visitList]
  simp [h, hn, hrec]

theorem visitList_step_brk (f : Nat) (path : VisitPath) (field : VField)
    (items : List VItem) (i : Nat) (v : Visitor) (it' : VItem)
    (clog : VLog)
    (h : i < items.length)
    (hn : visitNode f (path ++ [(field, i)]) items[i] v =
      some (it', .brk, clog)) :
    visitList (f + 1) path field items i v =
      some (items.set i it', true, clog) := by
  rw [visitList]
  simp [h, hn]

/-! ### No-op behavior of the traversal -/

/-- The visitor returns `undefined` on every item of the subtree. -/
def UndefOn (v : Visitor) (item : VItem) : Prop :=
  ∀ it ∈ subItemsI item, ∀ p, (v.run it p = .undef)

/-- The visitor returns `undefined` on every item below an optional token. -/
def UndefOnT (v : Visitor) (t : Option VToken) : Prop :=
  ∀ it ∈ subItemsT t, ∀ p, (v.run it p = .undef)

/-- The visitor returns `undefined` on every item below a list of items. -/
def UndefOnL (v : Visitor) (items : List VItem) : Prop :=
  ∀ it ∈ subItemsL items, ∀ p, v.run it p = .undef

theorem UndefOn.self {v : Visitor} {item : VItem} (h : UndefOn v item)
    (p : VisitPath) : v.run item p = .undef :=
  h item (self_mem_subItemsI item) p

theorem UndefOn.key {v : Visitor} {i : Nat} {k w : Option VToken}
    (h : UndefOn v (.mk i k w)) : UndefOnT v k := by
  intro it hit p
  apply h it ?_ p
  rw [subItemsI_def]
  exact List.mem_cons_of_mem _ (List.mem_append_left _ hit)

theorem UndefOn.value {v : Visitor} {i : Nat} {k w : Option VToken}
    (h : UndefOn v (.mk i k w)) : UndefOnT v w := by
  intro it hit p
  apply h it ?_ p
  rw [subItemsI_def]
  exact List.mem_cons_of_mem _ (List.mem_append_right _ hit)

theorem UndefOnT.toL {v : Visitor} {items : List VItem}
    (h : UndefOnT v (some (.coll items))) : UndefOnL v items := by
  intro it hit p
  exact h it (by rw [subItemsT_coll]; exact hit) p

theorem UndefOnL.head {v : Visitor} {it : VItem} {rest : List VItem}
    (h : UndefOnL v (it :: rest)) : UndefOn v it := by
  intro x hx p
  exact h x (by rw [subItemsL_cons]; exact List.mem_append_left _ hx) p

theorem UndefOnL.tail {v : Visitor} {it : VItem} {rest : List VItem}
    (h : UndefOnL v (it :: rest)) : UndefOnL v rest := by
  intro x hx p
  exact h x (by rw [subItemsL_cons]; exact List.mem_append_right _ hx) p

/-- A no-op-on-this-subtree visitor traverses the subtree depth first,
leaves it unchanged and returns no control value.  Stated jointly for the
three mutually recursive traversal functions. -/
theorem undef_run (fuel : Nat) :
    (∀ (path : VisitPath) (item : VItem) (v : Visitor), UndefOn v item →
      costNode item ≤ fuel →
      visitNode fuel path item v = some (item, .undef, dfsNode path item)) ∧
    (∀ (path : VisitPath) (item : VItem) (v : Visitor) (acc : VLog),
      UndefOnT v item.value → 1 + costField item.value ≤ fuel →
      visitValue fuel path item .undef v acc =
        some (item, .undef, acc ++ dfsField path .value item.value)) ∧
    (∀ (path : VisitPath) (field : VField) (items : List VItem) (i : Nat)
      (v : Visitor), UndefOnL v (items.drop i) →
      costList (items.drop i) ≤ fuel →
      visitList fuel path field items i v =
        some (items, false, dfsList path field (items.drop i) i)) := by
  induction fuel using Nat.strong_induction_on with
  | _ fuel ih =>
    refine ⟨?_, ?_, ?_⟩
    · intro path item v hu hc
      cases fuel with
      | zero => exact absurd hc (by have := costNode_pos item; omega)
      | succ f =>
        obtain ⟨fN, fV, fL⟩ := ih f (Nat.lt_succ_self f)
        obtain ⟨i, k, w⟩ := item
        have hrun := hu.self path
        rw [costNode_def] at hc
        have hvv := fV path (.mk i k w) v
        cases k with
        | none =>
          rw [visitNode_keyNone f path i w v .undef hrun (Or.inl rfl)]
          have h2 := fV path (.mk i none w) v [(i, path)] hu.value
            (by simp only [VItem.value]; rw [costField_none] at hc; omega)
          simp only [VItem.value] at h2
          rw [h2, dfsNode_def, dfsField_none]
          simp
        | some kt =>
          cases kt with
          | scalar m =>
            rw [visitNode_keyScalar f path i m w v .undef hrun (Or.inl rfl)]
            have h2 := fV path (.mk i (some (.scalar m)) w) v [(i, path)]
              hu.value
              (by simp only [VItem.value]; rw [costField_scalar] at hc; omega)
            simp only [VItem.value] at h2
            rw [h2, dfsNode_def, dfsField_scalar]
            simp
          | coll kitems =>
            rw [costField_coll] at hc
            have hkp := costList_pos kitems
            have hk := fL path .key kitems 0 v
              (by simpa [List.drop_zero] using hu.key.toL)
              (by simp only [List.drop_zero]; omega)
            simp only [List.drop_zero] at hk
            rw [visitNode_keyColl_undef f path i kitems kitems w v _ hrun hk]
            have h2 := fV path (.mk i (some (.coll kitems)) w) v
              ((i, path) :: dfsList path .key kitems 0) hu.value
              (by simp only [VItem.value]; omega)
            simp only [VItem.value] at h2
            rw [h2, dfsNode_def, dfsField_coll]
            simp
    · intro path item v acc hu hc
      cases fuel with
      | zero => exact absurd hc (by omega)
      | succ f =>
        obtain ⟨fN, fV, fL⟩ := ih f (Nat.lt_succ_self f)
        obtain ⟨i, k, w⟩ := item
        simp only [VItem.value] at hu hc ⊢
        cases w with
        | none =>
          rw [visitValue_valNone f path i k v .undef acc
            (fun g h => VRet.noConfusion h)]
          rw [dfsField_none]
          simp
        | some wt =>
          cases wt with
          | scalar m =>
            rw [visitValue_valScalar f path i m k v .undef acc
              (fun g h => VRet.noConfusion h)]
            rw [dfsField_scalar]
            simp
          | coll vitems =>
            rw [costField_coll] at hc
            have hv := fL path .value vitems 0 v
              (by simpa [List.drop_zero] using hu.toL)
              (by simp only [List.drop_zero]; omega)
            simp only [List.drop_zero] at hv
            rw [visitValue_valColl f path i k vitems vitems v .undef acc
              (dfsList path .value vitems 0) (fun g h => VRet.noConfusion h)
              hv]
            rw [dfsField_coll]
    · intro path field items i v hu hc
      cases fuel with
      | zero =>
        exact absurd hc (by have := costList_pos (items.drop i); omega)
      | succ f =>
        obtain ⟨fN, fV, fL⟩ := ih f (Nat.lt_succ_self f)
        by_cases h : i < items.length
        · have hdrop : items.drop i = items[i] :: items.drop (i + 1) :=
            List.drop_eq_getElem_cons h
          rw [hdrop] at hu hc
          rw [costList_cons] at hc
          have h1 := fN (path ++ [(field, i)]) items[i] v hu.head (by omega)
          have hset : items.set i items[i] = items :=
            set_self_of_getElem? items i items[i]
              (List.getElem?_eq_getElem h)
          have h2 := fL path field items (i + 1) v hu.tail (by omega)
          have hstep := visitList_step f path field items i v items[i]
            .undef (dfsNode (path ++ [(field, i)]) items[i])
            (dfsList path field (items.drop (i + 1)) (i + 1)) items false h
            (Or.inl rfl) h1 (by rw [hset]; exact h2)
          rw [hstep, hdrop, dfsList_cons]
        · rw [visitList_stop f path field items i v h]
          rw [List.drop_eq_nil_of_le (by omega), dfsList_nil]

mutual
theorem dfs_ids_node : ∀ (path : VisitPath) (item : VItem),
    (dfsNode path item).map Prod.fst = allIdsI item
  | path, .mk i k v => by
    rw [dfsNode_def, allIdsI_def]
    simp only [List.map_cons, List.map_append]
    rw [dfs_ids_field path .key k, dfs_ids_field path .value v]

theorem dfs_ids_field : ∀ (path : VisitPath) (f : VField)
    (t : Option VToken),
    (dfsField path f t).map Prod.fst = (subItemsT t).map VItem.id
  | path, f, none => by rw [dfsField_none, subItemsT_none]; rfl
  | path, f, some (.scalar n) => by
    rw [dfsField_scalar, subItemsT_scalar]; rfl
  | path, f, some (.coll items) => by
    rw [dfsField_coll, subItemsT_coll]
    exact dfs_ids_list path f items 0

theorem dfs_ids_list : ∀ (path : VisitPath) (f : VField)
    (items : List VItem) (i : Nat),
    (dfsList path f items i).map Prod.fst = allIdsL items
  | path, f, [], i => by rw [dfsList_nil]; rfl
  | path, f, it :: rest, i => by
    rw [dfsList_cons, allIdsL_cons, List.map_append]
    rw [dfs_ids_node (path ++ [(f, i)]) it, dfs_ids_list path f rest (i + 1)]
end

/-- A visitor that always returns `undefined` (a no-op visitor). -/
def noopVisitor : Visitor := .mk fun _ _ => .undef

theorem noopVisitor_undefOn (item : VItem) : UndefOn noopVisitor item :=
  fun _ _ _ => rfl

theorem itemToRoot_rootToItem (cst : VRoot) :
    itemToRoot cst (rootToItem cst) = cst := by
  cases cst <;> rfl

/-- C1: `visit(root, visitor)` with a visitor that always returns
`undefined` invokes the visitor exactly once on every item of the tree,
in depth-first order descending into key-collection children before
value-collection children (the invocation log equals the canonical
depth-first enumeration `dfsNode`, whose projection to ids lists every
item of the tree once); the tree is left unchanged, and `visit` returns no
control value (its result carries only the tree and the log, translating
the source's `void` return type). -/
theorem visit_noop (cst : VRoot) (fuel : Nat)
    (hf : costNode (rootToItem cst) ≤ fuel) :
    visit fuel cst noopVisitor =
      some (cst, dfsNode [] (rootToItem cst)) ∧
    (dfsNode [] (rootToItem cst)).map Prod.fst =
      allIdsI (rootToItem cst) := by
  constructor
  · have h := (undef_run fuel).1 [] (rootToItem cst) noopVisitor
      (noopVisitor_undefOn _) hf
    rw [visit, h]
    simp [itemToRoot_rootToItem]
  · exact dfs_ids_node [] _

/-- Witness for C1 at a concrete two-level tree. -/
theorem visit_noop_witness :
    costNode (rootToItem (VRoot.item
      (.mk 0 (some (.coll [.mk 1 none none, .mk 2 none none]))
        (some (.coll [.mk 3 none none]))))) ≤ 20 ∧
    visit 20 (VRoot.item
      (.mk 0 (some (.coll [.mk 1 none none, .mk 2 none none]))
        (some (.coll [.mk 3 none none])))) noopVisitor =
      some (VRoot.item
        (.mk 0 (some (.coll [.mk 1 none none, .mk 2 none none]))
          (some (.coll [.mk 3 none none]))),
        [(0, []), (1, [(.key, 0)]), (2, [(.key, 1)]),
          (3, [(.value, 0)])]) :=
  ⟨by decide,
    by
      have h := (visit_noop (VRoot.item
        (.mk 0 (some (.coll [.mk 1 none none, .mk 2 none none]))
          (some (.coll [.mk 3 none none])))) 20 (by decide)).1
      rw [h]
      rfl⟩

/-- C10: `itemAtPath(root, [])` with the empty path returns the given
root value itself, never `undefined`; in particular a `Document` root is
returned as-is, not unwrapped into the synthetic item that `visit`
builds. -/
theorem itemAtPath_empty_path (cst : VRoot) :
    itemAtPath cst [] = some cst ∧
    ∀ (i : Nat) (v : Option VToken),
      itemAtPath (VRoot.doc i v) [] = some (VRoot.doc i v) :=
  ⟨rfl, fun _ _ => rfl⟩

/-- C4 counterexample: for the empty path on a defined root,
`itemAtPath` returns the root (a defined item), yet `parentCollection`
throws: `path[path.length - 1][0]` dereferences `undefined`
(a `TypeError`), so the call does not complete without throwing. -/
theorem parentCollection_empty_path_throws :
    (itemAtPath (VRoot.item (.mk 0 none none)) []).isSome = true ∧
    parentCollection (VRoot.item (.mk 0 none none)) [] =
      .error .typeError :=
  ⟨rfl, rfl⟩

theorem itemAtPath_nil (cst : VRoot) : itemAtPath cst [] = some cst := rfl

theorem itemAtPath_append_single (cst : VRoot) (q : VisitPath) (f : VField)
    (j : Nat) :
    itemAtPath cst (q ++ [(f, j)]) =
      (itemAtPath cst q).bind (fun b =>
        match b.get f with
        | some (.coll l) => (l[j]?).map VRoot.item
        | _ => none) := by
  cases q with
  | nil =>
    simp only [List.nil_append, itemAtPath_nil, Option.some_bind]
    rw [itemAtPath.eq_def]
    cases hg : cst.get f with
    | none => simp [hg]
    | some t =>
      cases t with
      | scalar n => simp [hg]
      | coll items =>
        cases hj : items[j]? with
        | none => simp [hg, hj]
        | some it => simp [hg, hj, itemAtPath_nil]
  | cons s q' =>
    rw [show (s :: q') ++ [(f, j)] = s :: (q' ++ [(f, j)]) from rfl]
    rw [itemAtPath_nonempty, itemAtPath_nonempty]
    rw [show (s :: (q' ++ [(f, j)])) = (s :: q') ++ [(f, j)] from rfl]
    rw [itemAtPathI_append_single]
    cases hb : itemAtPathI (rootToItem cst) (s :: q') with
    | none => simp
    | some par =>
      simp only [Option.some_bind, Option.map_some', Option.some_bind]
      cases hg : par.get f with
      | none => simp [VRoot.get, hg]
      | some t =>
        cases t with
        | scalar n => simp [VRoot.get, hg]
        | coll items => simp [VRoot.get, hg]

/-- C4 amended: whenever `itemAtPath(root, path)` returns a defined item,
the `'Parent collection not found'` structural-invariant branch of
`parentCollection(root, path)` is unreachable, and for every non-empty
path the call does not throw at all: it returns the parent collection.
For the empty path the call still throws, but with a `TypeError` from
indexing `path[path.length - 1]`, before the invariant check is
reached. -/
theorem parentCollection_of_itemAtPath (cst : VRoot) (path : VisitPath)
    (h : (itemAtPath cst path).isSome = true) :
    parentCollection cst path ≠ .error .notFound ∧
    (path ≠ [] → ∃ t, parentCollection cst path = .ok t) := by
  rcases List.eq_nil_or_concat path with hnil | ⟨q, ⟨f, j⟩, hq⟩
  · subst hnil
    constructor
    · intro hcontra
      rw [parentCollection] at hcontra
      simp at hcontra
    · intro hne
      exact absurd rfl hne
  · rw [List.concat_eq_append] at hq
    subst hq
    have hok : ∃ t, parentCollection cst (q ++ [(f, j)]) = .ok t := by
      rw [itemAtPath_append_single] at h
      obtain ⟨r, hr⟩ := Option.isSome_iff_exists.mp h
      obtain ⟨b, hb, hstep⟩ := Option.bind_eq_some.mp hr
      rw [parentCollection]
      rw [List.dropLast_concat, List.getLast?_concat]
      rw [hb]
      cases hg : b.get f with
      | none => rw [hg] at hstep; simp at hstep
      | some t =>
        cases t with
        | scalar n => rw [hg] at hstep; simp at hstep
        | coll items =>
          exact ⟨.coll items, by simp [hg]⟩
    obtain ⟨t, ht⟩ := hok
    refine ⟨?_, fun _ => ⟨t, ht⟩⟩
    rw [ht]
    intro hcontra
    cases hcontra

/-- C4 amended, witness at a one-step path in a concrete tree. -/
theorem parentCollection_of_itemAtPath_witness :
    (itemAtPath (VRoot.item (.mk 0 (some (.coll [.mk 1 none none])) none))
      [(.key, 0)]).isSome = true ∧
    parentCollection
      (VRoot.item (.mk 0 (some (.coll [.mk 1 none none])) none))
      [(.key, 0)] ≠ .error .notFound :=
  ⟨by decide,
    (parentCollection_of_itemAtPath
      (VRoot.item (.mk 0 (some (.coll [.mk 1 none none])) none))
      [(.key, 0)] (by decide)).1⟩

/-! ### The `REMOVE` visitor of C2 and its helper lemmas -/

/-- Ids below one field. -/
def allIdsT (t : Option VToken) : List Nat := (subItemsT t).map VItem.id

theorem allIdsI_parts (i : Nat) (k v : Option VToken) :
    allIdsI (.mk i k v) = i :: (allIdsT k ++ allIdsT v) := by
  rw [allIdsI_def]; rfl

theorem allIdsT_coll (items : List VItem) :
    allIdsT (some (.coll items)) = allIdsL items := by
  rw [allIdsT, subItemsT_coll]; rfl

theorem allIdsT_none : allIdsT none = [] := rfl

theorem allIdsT_scalar (n : Nat) : allIdsT (some (.scalar n)) = [] := rfl

theorem id_mem_allIdsT_of_get {par : VItem} {fld : VField}
    {plist : List VItem} {x : VItem}
    (hg : par.get fld = some (.coll plist)) (hx : x ∈ subItemsL plist) :
    x.id ∈ allIdsT (par.get fld) := by
  rw [hg, allIdsT_coll]
  exact List.mem_map_of_mem VItem.id hx

/-- A visitor that returns `REMOVE` exactly on the item whose id is
`tid` and `undefined` on every other item (the C2 visitor: ids are unique,
and `tid` is the id of the item at path P). -/
def removeVis (tid : Nat) : Visitor :=
  .mk fun it _ => if it.id = tid then .remove else .undef

theorem removeVis_run_self (tid : Nat) (it : VItem) (p : VisitPath)
    (h : it.id = tid) : (removeVis tid).run it p = .remove := by
  simp [removeVis, Visitor.run, h]

theorem removeVis_run_ne (tid : Nat) (it : VItem) (p : VisitPath)
    (h : it.id ≠ tid) : (removeVis tid).run it p = .undef := by
  simp [removeVis, Visitor.run, h]

theorem undefOn_removeVis {tid : Nat} {it : VItem}
    (h : tid ∉ allIdsI it) : UndefOn (removeVis tid) it := by
  intro x hx p
  refine removeVis_run_ne tid x p (fun he => h ?_)
  rw [← he]
  exact id_mem_allIdsI hx

theorem undefOnT_removeVis {tid : Nat} {t : Option VToken}
    (h : tid ∉ allIdsT t) : UndefOnT (removeVis tid) t := by
  intro x hx p
  refine removeVis_run_ne tid x p (fun he => h ?_)
  rw [← he]
  exact List.mem_map_of_mem VItem.id hx

theorem undefOnL_removeVis {tid : Nat} {l : List VItem}
    (h : tid ∉ allIdsL l) : UndefOnL (removeVis tid) l := by
  intro x hx p
  refine removeVis_run_ne tid x p (fun he => h ?_)
  rw [← he]
  exact List.mem_map_of_mem VItem.id hx

theorem count_dfsNode_zero {x : Nat} (path : VisitPath) (it : VItem)
    (h : x ∉ allIdsI it) :
    (((dfsNode path it).map Prod.fst).count x) = 0 := by
  rw [dfs_ids_node]
  exact List.count_eq_zero_of_not_mem h

theorem count_dfsList_zero {x : Nat} (path : VisitPath) (f : VField)
    (items : List VItem) (i : Nat) (h : x ∉ allIdsL items) :
    (((dfsList path f items i).map Prod.fst).count x) = 0 := by
  rw [dfs_ids_list]
  exact List.count_eq_zero_of_not_mem h

theorem count_dfsField_zero {x : Nat} (path : VisitPath) (f : VField)
    (t : Option VToken) (h : x ∉ allIdsT t) :
    (((dfsField path f t).map Prod.fst).count x) = 0 := by
  rw [dfs_ids_field]
  exact List.count_eq_zero_of_not_mem h

theorem mem_drop_of_getElem? {α : Type} {items : List α} {c : α}
    {i j : Nat} (hij : i ≤ j) (h : items[j]? = some c) :
    c ∈ items.drop i := by
  have hd : (items.drop i)[j - i]? = items[j]? := by
    rw [List.getElem?_drop]
    congr 1
    omega
  exact List.getElem?_mem (hd.trans h)

theorem nodup_head_tail {items : List VItem} {i : Nat}
    (h : i < items.length)
    (hn : (allIdsL (items.drop i)).Nodup) :
    (allIdsI items[i]).Nodup ∧ (allIdsL (items.drop (i + 1))).Nodup ∧
    ∀ x ∈ allIdsI items[i], x ∉ allIdsL (items.drop (i + 1)) := by
  rw [List.drop_eq_getElem_cons h, allIdsL_cons] at hn
  rw [List.nodup_append] at hn
  exact ⟨hn.1, hn.2.1, fun x hx => hn.2.2 hx⟩

theorem nodup_item_parts {iid : Nat} {k w : Option VToken}
    (h : (allIdsI (.mk iid k w)).Nodup) :
    iid ∉ allIdsT k ∧ iid ∉ allIdsT w ∧
    (allIdsT k).Nodup ∧ (allIdsT w).Nodup ∧
    (∀ x ∈ allIdsT k, x ∉ allIdsT w) := by
  rw [allIdsI_parts] at h
  rw [List.nodup_cons, List.nodup_append] at h
  exact ⟨fun hx => h.1 (List.mem_append_left _ hx),
    fun hx => h.1 (List.mem_append_right _ hx),
    h.2.1, h.2.2.1, fun x hx => h.2.2.2 hx⟩

/-- C2 induction, node level: the target (whose id drives `removeVis`)
sits strictly below the current item, at `Qp ++ [(fld, idx)]`, and has a
following sibling. -/
def RemNodeStmt (fuel : Nat) : Prop :=
  ∀ (abs Qp : VisitPath) (item par tgt sib : VItem) (fld : VField)
    (idx : Nat) (plist : List VItem),
    itemAtPathI item Qp = some par →
    par.get fld = some (.coll plist) →
    plist[idx]? = some tgt →
    plist[idx + 1]? = some sib →
    (allIdsI item).Nodup →
    costNode item ≤ fuel →
    ∃ item' log,
      visitNode fuel abs item (removeVis tgt.id) =
        some (item', .undef, log) ∧
      itemAtPathI item' (Qp ++ [(fld, idx)]) = some sib ∧
      item'.id = item.id ∧
      (item.key = none → item'.key = none) ∧
      (log.map Prod.fst).count sib.id = 1

/-- C2 induction, list level, the target strictly below entry `j`. -/
def RemListBStmt (fuel : Nat) : Prop :=
  ∀ (abs : VisitPath) (field : VField) (items : List VItem) (i j : Nat)
    (cj par tgt sib : VItem) (Qp : VisitPath) (fld : VField) (idx : Nat)
    (plist : List VItem),
    i ≤ j →
    items[j]? = some cj →
    itemAtPathI cj Qp = some par →
    par.get fld = some (.coll plist) →
    plist[idx]? = some tgt →
    plist[idx + 1]? = some sib →
    (allIdsL (items.drop i)).Nodup →
    costList (items.drop i) ≤ fuel →
    ∃ cj' log,
      visitList fuel abs field items i (removeVis tgt.id) =
        some (items.set j cj', false, log) ∧
      itemAtPathI cj' (Qp ++ [(fld, idx)]) = some sib ∧
      cj'.id = cj.id ∧
      (log.map Prod.fst).count sib.id = 1

/-- C2 induction, list level, the target a direct entry at `j` with a
following sibling at `j + 1`. -/
def RemListAStmt (fuel : Nat) : Prop :=
  ∀ (abs : VisitPath) (field : VField) (items : List VItem) (i j : Nat)
    (tgt sib : VItem),
    i ≤ j →
    items[j]? = some tgt →
    items[j + 1]? = some sib →
    (allIdsL (items.drop i)).Nodup →
    costList (items.drop i) ≤ fuel →
    ∃ log,
      visitList fuel abs field items i (removeVis tgt.id) =
        some (items.eraseIdx j, false, log) ∧
      (log.map Prod.fst).count sib.id = 1

theorem itemAtPathI_single_coll {it : VItem} {f : VField}
    {l : List VItem} (j : Nat) (h : it.get f = some (.coll l)) :
    itemAtPathI it [(f, j)] = l[j]? := by
  have h2 := itemAtPathI_append_single it [] f j
  rw [List.nil_append] at h2
  rw [h2]
  simp only [itemAtPathI, Option.some_bind]
  rw [h]

theorem itemAtPathI_cons_coll {it : VItem} {f : VField} {l : List VItem}
    {j : Nat} {c : VItem} (rest : VisitPath)
    (h : it.get f = some (.coll l)) (hj : l[j]? = some c) :
    itemAtPathI it ((f, j) :: rest) = itemAtPathI c rest := by
  rw [itemAtPathI.eq_def]
  simp [h, hj]

theorem getElem?_lt {α : Type} {l : List α} {j : Nat} {a : α}
    (h : l[j]? = some a) : j < l.length := by
  rcases List.getElem?_eq_some_iff.mp h with ⟨hlt, -⟩
  exact hlt

theorem getElem_of_getElem? {α : Type} {l : List α} {j : Nat} {a : α}
    (h : l[j]? = some a) (hj : j < l.length) : l[j] = a := by
  rw [List.getElem?_eq_getElem hj] at h
  injection h

/-- The value phase of an item whose `value` list holds the target at
`idx`: the list loses that entry, the exit control is `undefined`. -/
theorem removeValuePhase (f' : Nat) (abs : VisitPath) (iid : Nat)
    (k' : Option VToken) (plist : List VItem) (idx : Nat)
    (tgt sib : VItem) (acc : VLog)
    (hA : RemListAStmt f')
    (htgt : plist[idx]? = some tgt) (hsib : plist[idx + 1]? = some sib)
    (hnd : (allIdsL plist).Nodup) (hcl : costList plist ≤ f') :
    ∃ alog,
      visitValue (f' + 1) abs (.mk iid k' (some (.coll plist))) .undef
        (removeVis tgt.id) acc =
        some (.mk iid k' (some (.coll (plist.eraseIdx idx))), .undef,
          acc ++ alog) ∧
      (alog.map Prod.fst).count sib.id = 1 := by
  obtain ⟨alog, halist, hacount⟩ := hA abs .value plist 0 idx tgt sib
    (Nat.zero_le idx) htgt hsib (by simpa using hnd) (by simpa using hcl)
  exact ⟨alog, visitValue_valColl f' abs iid k' plist (plist.eraseIdx idx)
    (removeVis tgt.id) .undef acc alog (fun g h => VRet.noConfusion h)
    halist, hacount⟩

/-- The value phase of an item whose `value` subtree does not contain the
target id: a plain depth-first no-op walk. -/
theorem noopValuePhase (f' : Nat) (abs : VisitPath) (iid : Nat)
    (k' w : Option VToken) (tid : Nat) (acc : VLog)
    (hnm : tid ∉ allIdsT w) (hcw : 1 + costField w ≤ f') :
    visitValue f' abs (.mk iid k' w) .undef (removeVis tid) acc =
      some (.mk iid k' w, .undef, acc ++ dfsField abs .value w) := by
  have h := (undef_run f').2.1 abs (.mk iid k' w) (removeVis tid) acc
    (by simp only [VItem.value]; exact undefOnT_removeVis hnm)
    (by simpa [VItem.value] using hcw)
  simpa [VItem.value] using h

/-- The key phase of an item whose `key` subtree does not contain the
target id and whose entry control is `undefined`. -/
theorem noopKeyPhase (f : Nat) (abs : VisitPath) (iid : Nat)
    (k w : Option VToken) (tid : Nat)
    (hrun : (removeVis tid).run (.mk iid k w) abs = .undef)
    (hnm : tid ∉ allIdsT k) (hck : costField k ≤ f) :
    visitNode (f + 1) abs (.mk iid k w) (removeVis tid) =
      visitValue f abs (.mk iid k w) .undef (removeVis tid)
        ((iid, abs) :: dfsField abs .key k) := by
  cases k with
  | none =>
    rw [visitNode_keyNone f abs iid w _ .undef hrun (Or.inl rfl),
      dfsField_none]
  | some kt =>
    cases kt with
    | scalar m =>
      rw [visitNode_keyScalar f abs iid m w _ .undef hrun (Or.inl rfl),
        dfsField_scalar]
    | coll kitems =>
      rw [allIdsT_coll] at hnm
      rw [costField_coll] at hck
      have hkl := (undef_run f).2.2 abs .key kitems 0 (removeVis tid)
        (by simpa using undefOnL_removeVis hnm) (by simpa using hck)
      simp only [List.drop_zero] at hkl
      rw [visitNode_keyColl_undef f abs iid kitems kitems w _ _ hrun hkl,
        dfsField_coll]

theorem remove_run (fuel : Nat) :
    RemNodeStmt fuel ∧ RemListBStmt fuel ∧ RemListAStmt fuel := by
  induction fuel using Nat.strong_induction_on with
  | _ fuel ih =>
    refine ⟨?_, ?_, ?_⟩
    · -- node level
      intro abs Qp item par tgt sib fld idx plist hpar hfld htgt hsib hnd hc
      cases fuel with
      | zero => exact absurd hc (by have := costNode_pos item; omega)
      | succ f =>
        obtain ⟨ihN, ihB, ihA⟩ := ih f (Nat.lt_succ_self f)
        obtain ⟨iid, k, w⟩ := item
        rw [costNode_def] at hc
        obtain ⟨hiidk, hiidw, hndk, hndw, hkw⟩ := nodup_item_parts hnd
        cases Qp with
        | nil =>
          rw [itemAtPathI] at hpar
          injection hpar with hpar
          subst hpar
          have htgt_sub : tgt ∈ subItemsL plist :=
            (subItemsI_subset_subItemsL (List.getElem?_mem htgt))
              (self_mem_subItemsI tgt)
          have hsib_sub : sib ∈ subItemsL plist :=
            (subItemsI_subset_subItemsL (List.getElem?_mem hsib))
              (self_mem_subItemsI sib)
          have htid_fld := id_mem_allIdsT_of_get hfld htgt_sub
          have hsid_fld := id_mem_allIdsT_of_get hfld hsib_sub
          rw [hfld, allIdsT_coll] at htid_fld hsid_fld
          cases fld with
          | key =>
            have hk : k = some (.coll plist) := hfld
            subst hk
            rw [allIdsT_coll] at hndk hkw hiidk
            have hrun : (removeVis tgt.id).run
                (.mk iid (some (.coll plist)) w) abs = .undef :=
              removeVis_run_ne _ _ _ (by
                show iid ≠ tgt.id
                intro he
                rw [he] at hiidk
                exact hiidk htid_fld)
            rw [costField_coll] at hc
            have hclp := costList_pos plist
            obtain ⟨alog, halist, hacount⟩ := ihA abs .key plist 0 idx tgt
              sib (Nat.zero_le idx) htgt hsib (by simpa using hndk)
              (by simp only [List.drop_zero]; omega)
            have hstep := visitNode_keyColl_undef f abs iid plist
              (plist.eraseIdx idx) w (removeVis tgt.id) alog hrun halist
            have hval := noopValuePhase f abs iid
              (some (.coll (plist.eraseIdx idx))) w tgt.id
              ((iid, abs) :: alog)
              (fun hm => hkw _ htid_fld hm) (by omega)
            refine ⟨.mk iid (some (.coll (plist.eraseIdx idx))) w,
              ((iid, abs) :: alog) ++ dfsField abs .value w,
              by rw [hstep, hval], ?_, rfl, ?_, ?_⟩
            · rw [List.nil_append,
                itemAtPathI_single_coll idx
                  (show (VItem.mk iid (some (.coll (plist.eraseIdx idx)))
                    w).get .key = some (.coll (plist.eraseIdx idx))
                    from rfl)]
              rw [getElem?_eraseIdx_self, hsib]
            · intro hcontra
              simp [VItem.key] at hcontra
            · have h0 : iid ≠ sib.id := by
                intro he
                rw [he] at hiidk
                exact hiidk hsid_fld
              simp only [List.map_append, List.map_cons,
                List.count_append, List.count_cons]
              rw [count_dfsField_zero abs .value w
                (fun hm => hkw _ hsid_fld hm), hacount]
              simp [h0, Ne.symm h0]
          | value =>
            have hw : w = some (.coll plist) := hfld
            subst hw
            rw [allIdsT_coll] at hndw hiidw
            have hkw' : ∀ x ∈ allIdsT k, x ∉ allIdsL plist := by
              intro x hx hm
              exact hkw x hx (by rwa [allIdsT_coll])
            have hrun : (removeVis tgt.id).run
                (.mk iid k (some (.coll plist))) abs = .undef :=
              removeVis_run_ne _ _ _ (by
                show iid ≠ tgt.id
                intro he
                rw [he] at hiidw
                exact hiidw htid_fld)
            rw [costField_coll] at hc
            have hclp := costList_pos plist
            have hkey := noopKeyPhase f abs iid k (some (.coll plist))
              tgt.id hrun (fun hm => hkw' _ hm htid_fld) (by omega)
            cases f with
            | zero => omega
            | succ f' =>
              obtain ⟨-, -, ihA'⟩ := ih f' (by omega)
              obtain ⟨alog, hval, hacount⟩ := removeValuePhase f' abs iid
                k plist idx tgt sib ((iid, abs) :: dfsField abs .key k)
                ihA' htgt hsib hndw (by omega)
              refine ⟨.mk iid k (some (.coll (plist.eraseIdx idx))),
                ((iid, abs) :: dfsField abs .key k) ++ alog,
                by rw [hkey, hval], ?_, rfl, ?_, ?_⟩
              · rw [List.nil_append,
                  itemAtPathI_single_coll idx
                    (show (VItem.mk iid k (some (.coll
                      (plist.eraseIdx idx)))).get .value =
                      some (.coll (plist.eraseIdx idx)) from rfl)]
                rw [getElem?_eraseIdx_self, hsib]
              · intro hcontra
                simp only [VItem.key] at hcontra ⊢
                exact hcontra
              · have h0 : iid ≠ sib.id := by
                  intro he
                  rw [he] at hiidw
                  exact hiidw hsid_fld
                simp only [List.map_append, List.map_cons,
                  List.count_append, List.count_cons]
                rw [count_dfsField_zero abs .key k
                  (fun hm => hkw' _ hm hsid_fld), hacount]
                simp [h0, Ne.symm h0]
        | cons s Qp' =>
          obtain ⟨g, jj⟩ := s
          rw [itemAtPathI] at hpar
          split at hpar
          case h_2 => cases hpar
          case h_1 glist hg =>
            split at hpar
            case h_2 => cases hpar
            case h_1 cmid hjj =>
              have hjjlen : jj < glist.length := getElem?_lt hjj
              have htgt_path : itemAtPathI cmid (Qp' ++ [(fld, idx)]) =
                  some tgt := by
                rw [itemAtPathI_append_single, hpar]
                simp only [Option.some_bind]
                rw [hfld]
                exact htgt
              have hsib_path : itemAtPathI cmid (Qp' ++ [(fld, idx + 1)]) =
                  some sib := by
                rw [itemAtPathI_append_single, hpar]
                simp only [Option.some_bind]
                rw [hfld]
                exact hsib
              have htid_cmid : tgt.id ∈ allIdsI cmid :=
                id_mem_allIdsI (itemAtPathI_mem htgt_path)
              have hsid_cmid : sib.id ∈ allIdsI cmid :=
                id_mem_allIdsI (itemAtPathI_mem hsib_path)
              have hsubL : allIdsI cmid ⊆ allIdsL glist :=
                allIdsI_subset_allIdsL (List.getElem?_mem hjj)
              have htid_g : tgt.id ∈ allIdsT ((VItem.mk iid k w).get g) := by
                rw [hg, allIdsT_coll]
                exact hsubL htid_cmid
              have hsid_g : sib.id ∈ allIdsT ((VItem.mk iid k w).get g) := by
                rw [hg, allIdsT_coll]
                exact hsubL hsid_cmid
              cases g with
              | key =>
                have hk : k = some (.coll glist) := hg
                subst hk
                simp only [VItem.get] at htid_g hsid_g
                rw [allIdsT_coll] at hndk hkw hiidk
                have htid_k : tgt.id ∈ allIdsL glist := by
                  rwa [allIdsT_coll] at htid_g
                have hrun : (removeVis tgt.id).run
                    (.mk iid (some (.coll glist)) w) abs = .undef :=
                  removeVis_run_ne _ _ _ (by
                    show iid ≠ tgt.id
                    intro he
                    rw [he] at hiidk
                    exact hiidk htid_k)
                rw [costField_coll] at hc
                have hclg := costList_pos glist
                obtain ⟨cj', blog, hblist, hbpath, hbid, hbcount⟩ :=
                  ihB abs .key glist 0 jj cmid par tgt sib Qp' fld idx
                    plist (Nat.zero_le jj) hjj hpar hfld htgt hsib
                    (by simpa using hndk)
                    (by simp only [List.drop_zero]; omega)
                have hstep := visitNode_keyColl_undef f abs iid glist
                  (glist.set jj cj') w (removeVis tgt.id) blog hrun hblist
                have hval := noopValuePhase f abs iid
                  (some (.coll (glist.set jj cj'))) w tgt.id
                  ((iid, abs) :: blog)
                  (fun hm => hkw _ (by rwa [allIdsT_coll] at htid_g) hm)
                  (by omega)
                refine ⟨.mk iid (some (.coll (glist.set jj cj'))) w,
                  ((iid, abs) :: blog) ++ dfsField abs .value w,
                  by rw [hstep, hval], ?_, rfl, ?_, ?_⟩
                · rw [List.cons_append,
                    itemAtPathI_cons_coll (Qp' ++ [(fld, idx)])
                      (show (VItem.mk iid (some (.coll (glist.set jj
                        cj'))) w).get .key =
                        some (.coll (glist.set jj cj')) from rfl)
                      (by rw [List.getElem?_set_self
                        (by simpa using hjjlen)])]
                  exact hbpath
                · intro hcontra
                  simp [VItem.key] at hcontra
                · have hsidk : sib.id ∈ allIdsL glist := by
                    rwa [allIdsT_coll] at hsid_g
                  have h0 : iid ≠ sib.id := by
                    intro he
                    rw [he] at hiidk
                    exact hiidk hsidk
                  simp only [List.map_append, List.map_cons,
                    List.count_append, List.count_cons]
                  rw [count_dfsField_zero abs .value w
                    (fun hm => hkw _ hsidk hm), hbcount]
                  simp [h0, Ne.symm h0]
              | value =>
                have hw : w = some (.coll glist) := hg
                subst hw
                simp only [VItem.get] at htid_g hsid_g
                rw [allIdsT_coll] at hndw hiidw
                have htid_v : tgt.id ∈ allIdsL glist := by
                  rwa [allIdsT_coll] at htid_g
                have hsid_v : sib.id ∈ allIdsL glist := by
                  rwa [allIdsT_coll] at hsid_g
                have hkw' : ∀ x ∈ allIdsT k, x ∉ allIdsL glist := by
                  intro x hx hm
                  exact hkw x hx (by rwa [allIdsT_coll])
                have hrun : (removeVis tgt.id).run
                    (.mk iid k (some (.coll glist))) abs = .undef :=
                  removeVis_run_ne _ _ _ (by
                    show iid ≠ tgt.id
                    intro he
                    rw [he] at hiidw
                    exact hiidw htid_v)
                rw [costField_coll] at hc
                have hclg := costList_pos glist
                have hkey := noopKeyPhase f abs iid k
                  (some (.coll glist)) tgt.id hrun
                  (fun hm => hkw' _ hm htid_v) (by omega)
                cases f with
                | zero => omega
                | succ f' =>
                  obtain ⟨-, ihB', -⟩ := ih f' (by omega)
                  obtain ⟨cj', blog, hblist, hbpath, hbid, hbcount⟩ :=
                    ihB' abs .value glist 0 jj cmid par tgt sib Qp' fld
                      idx plist (Nat.zero_le jj) hjj hpar hfld htgt hsib
                      (by simpa using hndw)
                      (by simp only [List.drop_zero]; omega)
                  have hval := visitValue_valColl f' abs iid k glist
                    (glist.set jj cj') (removeVis tgt.id) .undef
                    ((iid, abs) :: dfsField abs .key k) blog
                    (fun g h => VRet.noConfusion h) hblist
                  refine ⟨.mk iid k (some (.coll (glist.set jj cj'))),
                    ((iid, abs) :: dfsField abs .key k) ++ blog,
                    by rw [hkey, hval], ?_, rfl, ?_, ?_⟩
                  · rw [List.cons_append,
                      itemAtPathI_cons_coll (Qp' ++ [(fld, idx)])
                        (show (VItem.mk iid k (some (.coll (glist.set jj
                          cj')))).get .value =
                          some (.coll (glist.set jj cj')) from rfl)
                        (by rw [List.getElem?_set_self
                          (by simpa using hjjlen)])]
                    exact hbpath
                  · intro hcontra
                    simp only [VItem.key] at hcontra ⊢
                    exact hcontra
                  · have h0 : iid ≠ sib.id := by
                      intro he
                      rw [he] at hiidw
                      exact hiidw hsid_v
                    simp only [List.map_append, List.map_cons,
                      List.count_append, List.count_cons]
                    rw [count_dfsField_zero abs .key k
                      (fun hm => hkw' _ hm hsid_v), hbcount]
                    simp [h0, Ne.symm h0]
    · -- list level, target strictly below entry j
      intro abs field items i j cj par tgt sib Qp fld idx plist hij hj
        hpar hfld htgt hsib hnd hc
      cases fuel with
      | zero =>
        exact absurd hc (by have := costList_pos (items.drop i); omega)
      | succ f =>
        obtain ⟨ihN, ihB, ihA⟩ := ih f (Nat.lt_succ_self f)
        have hjlen : j < items.length := getElem?_lt hj
        have hilen : i < items.length := Nat.lt_of_le_of_lt hij hjlen
        have hdropi : items.drop i = items[i] :: items.drop (i + 1) :=
          List.drop_eq_getElem_cons hilen
        obtain ⟨hndH, hndT, hdisj⟩ := nodup_head_tail hilen hnd
        have htgt_path : itemAtPathI cj (Qp ++ [(fld, idx)]) = some tgt := by
          rw [itemAtPathI_append_single, hpar]
          simp only [Option.some_bind]
          rw [hfld]
          exact htgt
        have hsib_path : itemAtPathI cj (Qp ++ [(fld, idx + 1)]) =
            some sib := by
          rw [itemAtPathI_append_single, hpar]
          simp only [Option.some_bind]
          rw [hfld]
          exact hsib
        have htid_cj : tgt.id ∈ allIdsI cj :=
          id_mem_allIdsI (itemAtPathI_mem htgt_path)
        have hsid_cj : sib.id ∈ allIdsI cj :=
          id_mem_allIdsI (itemAtPathI_mem hsib_path)
        rw [hdropi, costList_cons] at hc
        rcases Nat.lt_or_ge i j with hlt | hge
        · have hcjmem : cj ∈ items.drop (i + 1) :=
            mem_drop_of_getElem? (by omega) hj
          have htidT : tgt.id ∈ allIdsL (items.drop (i + 1)) :=
            allIdsI_subset_allIdsL hcjmem htid_cj
          have hsidT : sib.id ∈ allIdsL (items.drop (i + 1)) :=
            allIdsI_subset_allIdsL hcjmem hsid_cj
          have htidnotH : tgt.id ∉ allIdsI items[i] :=
            fun hm => hdisj _ hm htidT
          have hsidnotH : sib.id ∉ allIdsI items[i] :=
            fun hm => hdisj _ hm hsidT
          have hhead := (undef_run f).1 (abs ++ [(field, i)]) items[i]
            (removeVis tgt.id) (undefOn_removeVis htidnotH) (by omega)
          obtain ⟨cj', log2, hrun2, hpath2, hid2, hcount2⟩ :=
            ihB abs field items (i + 1) j cj par tgt sib Qp fld idx plist
              (by omega) hj hpar hfld htgt hsib hndT (by omega)
          have hset := set_self_of_getElem? items i items[i]
            (List.getElem?_eq_getElem hilen)
          have hstep := visitList_step f abs field items i
            (removeVis tgt.id) items[i] .undef
            (dfsNode (abs ++ [(field, i)]) items[i]) log2
            (items.set j cj') false hilen (Or.inl rfl) hhead
            (by rw [hset]; exact hrun2)
          refine ⟨cj', _, hstep, hpath2, hid2, ?_⟩
          rw [List.map_append, List.count_append,
            count_dfsNode_zero _ _ hsidnotH, hcount2]
        · have hij2 : i = j := by omega
          subst hij2
          have hicj : items[i] = cj := getElem_of_getElem? hj hilen
          rw [hicj] at hndH hc
          have htidnotT : tgt.id ∉ allIdsL (items.drop (i + 1)) := by
            intro hm
            exact hdisj tgt.id (by rw [hicj]; exact htid_cj) hm
          have hsidnotT : sib.id ∉ allIdsL (items.drop (i + 1)) :=
            fun hm => hdisj sib.id (by rw [hicj]; exact hsid_cj) hm
          obtain ⟨cj', log1, hrun1, hpath1, hid1, hkey1, hcount1⟩ :=
            ihN (abs ++ [(field, i)]) Qp cj par tgt sib fld idx plist
              hpar hfld htgt hsib hndH (by omega)
          have hdset : (items.set i cj').drop (i + 1) =
              items.drop (i + 1) :=
            drop_set_of_lt' items i (i + 1) cj' (Nat.lt_succ_self i)
          have hrest := (undef_run f).2.2 abs field (items.set i cj')
            (i + 1) (removeVis tgt.id)
            (by rw [hdset]; exact undefOnL_removeVis htidnotT)
            (by rw [hdset]; omega)
          have hstep := visitList_step f abs field items i
            (removeVis tgt.id) cj' .undef log1
            (dfsList abs field ((items.set i cj').drop (i + 1)) (i + 1))
            (items.set i cj') false hilen (Or.inl rfl)
            (by rw [hicj]; exact hrun1) hrest
          refine ⟨cj', _, hstep, hpath1, hid1, ?_⟩
          rw [List.map_append, List.count_append, hcount1, hdset,
            count_dfsList_zero _ _ _ _ hsidnotT]
    · -- list level, target a direct entry at j
      intro abs field items i j tgt sib hij hj hj1 hnd hc
      cases fuel with
      | zero =>
        exact absurd hc (by have := costList_pos (items.drop i); omega)
      | succ f =>
        obtain ⟨ihN, ihB, ihA⟩ := ih f (Nat.lt_succ_self f)
        have hjlen : j < items.length := getElem?_lt hj
        have hilen : i < items.length := Nat.lt_of_le_of_lt hij hjlen
        have hdropi : items.drop i = items[i] :: items.drop (i + 1) :=
          List.drop_eq_getElem_cons hilen
        obtain ⟨hndH, hndT, hdisj⟩ := nodup_head_tail hilen hnd
        rw [hdropi, costList_cons] at hc
        rcases Nat.lt_or_ge i j with hlt | hge
        · have htgtmem : tgt ∈ items.drop (i + 1) :=
            mem_drop_of_getElem? (by omega) hj
          have hsibmem : sib ∈ items.drop (i + 1) :=
            mem_drop_of_getElem? (by omega) hj1
          have htidT : tgt.id ∈ allIdsL (items.drop (i + 1)) :=
            allIdsI_subset_allIdsL htgtmem (self_id_mem_allIdsI tgt)
          have hsidT : sib.id ∈ allIdsL (items.drop (i + 1)) :=
            allIdsI_subset_allIdsL hsibmem (self_id_mem_allIdsI sib)
          have htidnotH : tgt.id ∉ allIdsI items[i] :=
            fun hm => hdisj _ hm htidT
          have hsidnotH : sib.id ∉ allIdsI items[i] :=
            fun hm => hdisj _ hm hsidT
          have hhead := (undef_run f).1 (abs ++ [(field, i)]) items[i]
            (removeVis tgt.id) (undefOn_removeVis htidnotH) (by omega)
          obtain ⟨log2, hrun2, hcount2⟩ := ihA abs field items (i + 1) j
            tgt sib (by omega) hj hj1 hndT (by omega)
          have hset := set_self_of_getElem? items i items[i]
            (List.getElem?_eq_getElem hilen)
          have hstep := visitList_step f abs field items i
            (removeVis tgt.id) items[i] .undef
            (dfsNode (abs ++ [(field, i)]) items[i]) log2
            (items.eraseIdx j) false hilen (Or.inl rfl) hhead
            (by rw [hset]; exact hrun2)
          refine ⟨_, hstep, ?_⟩
          rw [List.map_append, List.count_append,
            count_dfsNode_zero _ _ hsidnotH, hcount2]
        · have hij2 : i = j := by omega
          subst hij2
          have hitgt : items[i] = tgt := getElem_of_getElem? hj hilen
          rw [hitgt] at hndH hc
          have htidnotT : tgt.id ∉ allIdsL (items.drop (i + 1)) :=
            fun hm => hdisj tgt.id (by rw [hitgt]
                                       exact self_id_mem_allIdsI tgt) hm
          have hsibmem : sib ∈ items.drop (i + 1) :=
            mem_drop_of_getElem? (by omega) hj1
          have hsidT : sib.id ∈ allIdsL (items.drop (i + 1)) :=
            allIdsI_subset_allIdsL hsibmem (self_id_mem_allIdsI sib)
          have hsibne : sib.id ≠ tgt.id := fun he => htidnotT (he ▸ hsidT)
          cases f with
          | zero =>
            exact absurd hc (by have := costNode_pos tgt
                                have := costList_pos (items.drop (i + 1))
                                omega)
          | succ f' =>
            have hentry := visitNode_symb f' (abs ++ [(field, i)])
              items[i] (removeVis tgt.id) .remove
              (removeVis_run_self _ _ _ (by rw [hitgt]))
              (Or.inr (Or.inr rfl))
            have hset := set_self_of_getElem? items i items[i]
              (List.getElem?_eq_getElem hilen)
            have herase_drop : ((items.set i items[i]).eraseIdx i).drop i =
                items.drop (i + 1) := by
              rw [hset]
              exact drop_eraseIdx_self items i
            have hrest := (undef_run (f' + 1)).2.2 abs field
              ((items.set i items[i]).eraseIdx i) i (removeVis tgt.id)
              (by rw [herase_drop]; exact undefOnL_removeVis htidnotT)
              (by rw [herase_drop]; omega)
            have hstep := visitList_step_remove (f' + 1) abs field items i
              (removeVis tgt.id) items[i]
              [(items[i].id, abs ++ [(field, i)])]
              (dfsList abs field (((items.set i items[i]).eraseIdx i).drop i)
                i) ((items.set i items[i]).eraseIdx i) false hilen hentry
              hrest
            rw [hset] at hstep
            refine ⟨_, hstep, ?_⟩
            rw [drop_eraseIdx_self items i, hitgt]
            have hcd : ((dfsList abs field (items.drop (i + 1)) i).map
                Prod.fst).count sib.id = 1 := by
              rw [dfs_ids_list]
              exact List.count_eq_one_of_mem hndT hsidT
            simp only [List.map_append, List.map_cons, List.map_nil,
              List.count_append, List.count_cons]
            simp [hcd, hsibne, Ne.symm hsibne]

mutual
theorem subItemsI_sublist_of_mem : ∀ (a b : VItem),
    b ∈ subItemsI a → (subItemsI b).Sublist (subItemsI a)
  | .mk i k v, b, hb => by
    rw [subItemsI_def] at hb ⊢
    rcases List.mem_cons.mp hb with h | h
    · subst h
      rw [subItemsI_def]
    · rcases List.mem_append.mp h with h | h
      · exact ((subItemsT_sublist_of_mem k b h).trans
          (List.sublist_append_left _ _)).trans
          (List.sublist_cons_self _ _)
      · exact ((subItemsT_sublist_of_mem v b h).trans
          (List.sublist_append_right _ _)).trans
          (List.sublist_cons_self _ _)

theorem subItemsT_sublist_of_mem : ∀ (t : Option VToken) (b : VItem),
    b ∈ subItemsT t → (subItemsI b).Sublist (subItemsT t)
  | some (.coll items), b, hb => by
    rw [subItemsT_coll] at hb ⊢
    exact subItemsL_sublist_of_mem items b hb
  | some (.scalar n), b, hb => by rw [subItemsT_scalar] at hb; cases hb
  | none, b, hb => by rw [subItemsT_none] at hb; cases hb

theorem subItemsL_sublist_of_mem : ∀ (l : List VItem) (b : VItem),
    b ∈ subItemsL l → (subItemsI b).Sublist (subItemsL l)
  | [], b, hb => by cases hb
  | x :: xs, b, hb => by
    rw [subItemsL_cons] at hb ⊢
    rcases List.mem_append.mp hb with h | h
    · exact (subItemsI_sublist_of_mem x b h).trans
        (List.sublist_append_left _ _)
    · exact (subItemsL_sublist_of_mem xs b h).trans
        (List.sublist_append_right _ _)
end

theorem nodup_allIds_of_mem {root b : VItem} (hb : b ∈ subItemsI root)
    (hnd : (allIdsI root).Nodup) : (allIdsI b).Nodup :=
  hnd.sublist ((subItemsI_sublist_of_mem root b hb).map VItem.id)

theorem nodup_allIdsL_drop {l : List VItem} (n : Nat)
    (hnd : (allIdsL l).Nodup) : (allIdsL (l.drop n)).Nodup := by
  refine hnd.sublist (List.Sublist.map VItem.id ?_)
  conv_rhs => rw [show subItemsL l = subItemsL (l.take n ++ l.drop n)
    from by rw [List.take_append_drop]]
  rw [subItemsL_append]
  exact List.sublist_append_right _ _

theorem itemAtPath_toI {cst : VRoot} {p : VisitPath} (hne : p ≠ []) :
    itemAtPath cst p =
      (itemAtPathI (rootToItem cst) p).map VRoot.item := by
  cases p with
  | nil => exact absurd rfl hne
  | cons s q => exact itemAtPath_nonempty cst s q

theorem rootToItem_itemToRoot {cst : VRoot} {it : VItem}
    (hid : it.id = (rootToItem cst).id)
    (hkey : (rootToItem cst).key = none → it.key = none) :
    rootToItem (itemToRoot cst it) = it := by
  cases cst with
  | item x => rfl
  | doc i v =>
    obtain ⟨a, b, c⟩ := it
    simp only [rootToItem, itemToRoot, VItem.id, VItem.key, VItem.value]
      at hid hkey ⊢
    rw [hid, hkey trivial]

/-- C2: for every tree and every non-root item at `P = pre ++ [(fld, idx)]`
with a following sibling, running `visit` with a visitor that returns
`REMOVE` exactly at that item (identified by its unique id) and
`undefined` elsewhere leaves the parent collection's item list without
the removed item at `P`'s former index (the old following sibling now sits
there), and that sibling is visited exactly once — neither skipped nor
visited twice. -/
theorem visit_remove_sibling (cst : VRoot) (pre : VisitPath) (fld : VField)
    (idx : Nat) (tgt sib : VItem) (fuel : Nat)
    (hnd : (allIdsI (rootToItem cst)).Nodup)
    (htgt : itemAtPath cst (pre ++ [(fld, idx)]) = some (.item tgt))
    (hsib : itemAtPath cst (pre ++ [(fld, idx + 1)]) = some (.item sib))
    (hf : costNode (rootToItem cst) ≤ fuel) :
    ∃ cst' log,
      visit fuel cst (removeVis tgt.id) = some (cst', log) ∧
      itemAtPath cst' (pre ++ [(fld, idx)]) = some (.item sib) ∧
      sib.id ≠ tgt.id ∧
      (log.map Prod.fst).count sib.id = 1 := by
  rw [itemAtPath_toI (by simp)] at htgt hsib
  obtain ⟨tgt', htgtI, htgte⟩ := Option.map_eq_some'.mp htgt
  obtain ⟨sib', hsibI, hsibe⟩ := Option.map_eq_some'.mp hsib
  have htgte' : tgt' = tgt := by injection htgte
  have hsibe' : sib' = sib := by injection hsibe
  rw [htgte'] at htgtI
  rw [hsibe'] at hsibI
  rw [itemAtPathI_append_single] at htgtI hsibI
  obtain ⟨par, hpar, hstep1⟩ := Option.bind_eq_some.mp htgtI
  obtain ⟨par2, hpar2, hstep2⟩ := Option.bind_eq_some.mp hsibI
  rw [hpar] at hpar2
  injection hpar2 with hpar2
  subst hpar2
  cases hg : par.get fld with
  | none => rw [hg] at hstep1; cases hstep1
  | some t =>
    cases t with
    | scalar n => rw [hg] at hstep1; cases hstep1
    | coll plist =>
      rw [hg] at hstep1 hstep2
      simp only at hstep1 hstep2
      obtain ⟨item', log, hrun, hpath, hid, hkeep, hcount⟩ :=
        (remove_run fuel).1 [] pre (rootToItem cst) par tgt sib fld idx
          plist hpar hg hstep1 hstep2 hnd hf
      refine ⟨itemToRoot cst item', log, ?_, ?_, ?_, hcount⟩
      · rw [visit, hrun]
      · rw [itemAtPath_toI (by simp)]
        rw [rootToItem_itemToRoot (by rw [hid]) hkeep, hpath]
        rfl
      · -- the sibling's id differs from the removed item's id
        have hparmem : par ∈ subItemsI (rootToItem cst) :=
          itemAtPathI_mem hpar
        have hndpar : (allIdsI par).Nodup :=
          nodup_allIds_of_mem hparmem hnd
        have hndpl : (allIdsL plist).Nodup := by
          obtain ⟨a, b, c⟩ := par
          obtain ⟨-, -, hk, hw, -⟩ := nodup_item_parts hndpar
          cases fld with
          | key =>
            have : b = some (.coll plist) := hg
            subst this
            rwa [allIdsT_coll] at hk
          | value =>
            have : c = some (.coll plist) := hg
            subst this
            rwa [allIdsT_coll] at hw
        have hidxlen : idx < plist.length := getElem?_lt hstep1
        obtain ⟨hndH, hndT, hdisj⟩ :=
          nodup_head_tail hidxlen (by simpa using nodup_allIdsL_drop idx hndpl)
        have hsibmem : sib ∈ plist.drop (idx + 1) :=
          mem_drop_of_getElem? (by omega) hstep2
        have hsidT : sib.id ∈ allIdsL (plist.drop (idx + 1)) :=
          allIdsI_subset_allIdsL hsibmem (self_id_mem_allIdsI sib)
        have hit : plist[idx] = tgt := getElem_of_getElem? hstep1 hidxlen
        intro he
        refine hdisj sib.id ?_ hsidT
        rw [hit, he]
        exact self_id_mem_allIdsI tgt

/-- Witness for C2 at a concrete tree: remove the first of two siblings
in a key collection. -/
theorem visit_remove_sibling_witness :
    (allIdsI (rootToItem (VRoot.item (.mk 0 (some (.coll
      [.mk 1 none none, .mk 2 none none])) none)))).Nodup ∧
    ∃ cst' log,
      visit 20 (VRoot.item (.mk 0 (some (.coll
        [.mk 1 none none, .mk 2 none none])) none))
        (removeVis (VItem.mk 1 none none).id) = some (cst', log) ∧
      itemAtPath cst' ([] ++ [(.key, 0)]) =
        some (.item (.mk 2 none none)) ∧
      (VItem.mk 2 none none).id ≠ (VItem.mk 1 none none).id ∧
      (log.map Prod.fst).count (VItem.mk 2 none none).id = 1 :=
  ⟨by decide,
    visit_remove_sibling
      (VRoot.item (.mk 0 (some (.coll
        [.mk 1 none none, .mk 2 none none])) none))
      [] .key 0 (.mk 1 none none) (.mk 2 none none) 20
      (by decide) (by rfl) (by rfl) (by decide)⟩

/-! ### C3: the mid-item continuation and `BREAK` -/

/-- A visitor that always returns `BREAK`. -/
def breakAllVis : Visitor := .mk fun _ _ => .brk

/-- A visitor that returns the always-`BREAK` continuation on the item
with id `0` and `undefined` elsewhere. -/
def contBreakVis : Visitor :=
  .mk fun it _ => (if it.id = 0 then .fn breakAllVis else .undef)

/-- C3 counterexample: item 0 has key collection `[item 1]` and value
collection `[item 2]`.  The entry visitor returns a continuation at
item 0; after the key children, the mid-item continuation call returns
`BREAK` — yet item 2, under the item's `value`, is still visited (its
entry appears in the log), contradicting the claim that no items under
the item's value are visited. -/
theorem visit_continuation_break_counterexample :
    visit 20 (VRoot.item (.mk 0 (some (.coll [.mk 1 none none]))
      (some (.coll [.mk 2 none none])))) contBreakVis =
      some (VRoot.item (.mk 0 (some (.coll [.mk 1 none none]))
        (some (.coll [.mk 2 none none]))),
        [(0, []), (1, [(.key, 0)]), (2, [(.value, 0)])]) ∧
    ((2 : Nat), [((VField.value), 0)]) ∈
      [((0 : Nat), ([] : VisitPath)), (1, [(.key, 0)]),
        (2, [(.value, 0)])] :=
  ⟨rfl, by decide⟩

/-- C3 amended: when the entry visitor returns a continuation on an item
whose key is a collection, the continuation invoked after key-child
traversal has its return value installed as the item's new control value;
a `BREAK` it returns does not prevent descending into the value's
children — those are still traversed (their log is appended) — and the
item then returns `BREAK`, which aborts the rest of the traversal: a
parent items loop stops immediately when a child returns `BREAK`. -/
theorem visit_continuation_break (f2 : Nat) (path : VisitPath) (i : Nat)
    (kitems ks vitems vs : List VItem) (v g : Visitor)
    (klog vlog : VLog) (vb : Bool)
    (hrun : v.run (.mk i (some (.coll kitems)) (some (.coll vitems)))
      path = .fn g)
    (hk : visitList (f2 + 1) path .key kitems 0 v = some (ks, false, klog))
    (hmid : g.run (.mk i (some (.coll ks)) (some (.coll vitems))) path =
      .brk)
    (hv : visitList f2 path .value vitems 0 v = some (vs, vb, vlog)) :
    visitNode (f2 + 2) path
      (.mk i (some (.coll kitems)) (some (.coll vitems))) v =
      some (.mk i (some (.coll ks)) (some (.coll vs)), .brk,
        ([(i, path)] ++ klog) ++ vlog) ∧
    ∀ (fl : Nat) (abs : VisitPath) (field : VField) (items : List VItem)
      (j : Nat) (it' : VItem) (clog : VLog) (hlt : j < items.length),
      visitNode fl (abs ++ [(field, j)]) items[j] v =
        some (it', .brk, clog) →
      visitList (fl + 1) abs field items j v =
        some (items.set j it', true, clog) := by
  constructor
  · rw [visitNode_keyColl_fn (f2 + 1) path i kitems ks
      (some (.coll vitems)) v g klog hrun hk]
    rw [hmid]
    cases vb with
    | true =>
      rw [visitValue_valColl_brk f2 path i (some (.coll ks)) vitems vs v
        .brk ((i, path) :: klog) vlog hv]
      simp
    | false =>
      rw [visitValue_valColl f2 path i (some (.coll ks)) vitems vs v
        .brk ((i, path) :: klog) vlog (fun g h => VRet.noConfusion h) hv]
      simp
  · intro fl abs field items j it' clog hlt hn
    exact visitList_step_brk fl abs field items j v it' clog hlt hn

/-- Witness for C3 amended at the counterexample tree. -/
theorem visit_continuation_break_witness :
    visitNode 5 [] (.mk 0 (some (.coll [.mk 1 none none]))
      (some (.coll [.mk 2 none none]))) contBreakVis =
      some (.mk 0 (some (.coll [.mk 1 none none]))
        (some (.coll [.mk 2 none none])), .brk,
        ([(0, [])] ++ [(1, [(.key, 0)])]) ++ [(2, [(.value, 0)])]) :=
  (visit_continuation_break 3 [] 0 [.mk 1 none none] [.mk 1 none none]
    [.mk 2 none none] [.mk 2 none none] contBreakVis breakAllVis
    [(1, [(.key, 0)])] [(2, [(.value, 0)])] false rfl rfl rfl rfl).1

end YamlCst

namespace YamlComp

/-- Strings are modelled as character lists. -/
abbrev Str := List Char

/-- Error codes surfaced by the composition core. -/
inductive ECode where
  | BAD_DIRECTIVE
  | MISSING_CHAR
  | UNEXPECTED_TOKEN
deriving DecidableEq, Repr

/-- A `YAMLParseError`/`YAMLWarning`: position pair, code, message. -/
structure PErr where
  pos : Nat × Nat
  code : ECode
  message : Str
deriving DecidableEq, Repr

/-- Kinds of decorative source tokens in a document's `start`/`end`
spans. -/
inductive SrcType where
  | docStart
  | commentT
  | newlineT
  | spaceT
  | otherT
deriving DecidableEq, Repr

/-- A decorative source token. -/
structure SourceToken where
  stype : SrcType
  offset : Nat
  source : Str
deriving DecidableEq, Repr

mutual
/-- A composed AST node, with the fields the composer reads or writes:
`range : [start, valueEnd, nodeEnd]`, `commentBefore`, `comment`, and its
collection structure. -/
inductive Node where
  | mk : (Nat × Nat × Nat) → Str → Str → NodeKind → Node

/-- Whether a node is a scalar or a collection (`flow` flag, items). -/
inductive NodeKind where
  | scalarN : NodeKind
  | collectionN : Bool → List NItem → NodeKind

/-- A collection entry: a plain node (sequence entry) or a `Pair`, of
which only the key node is relevant to decoration. -/
inductive NItem where
  | plainI : Node → NItem
  | pairI : Node → NItem
end

/-- `range` of a node. -/
def Node.range : Node → Nat × Nat × Nat
  | .mk r _ _ _ => r

/-- `commentBefore` of a node (empty = unset, as JavaScript falsiness
does not distinguish `''` from `undefined` here). -/
def Node.commentBefore : Node → Str
  | .mk _ cb _ _ => cb

/-- `comment` of a node. -/
def Node.comment : Node → Str
  | .mk _ _ c _ => c

/-- Kind of a node. -/
def Node.kind : Node → NodeKind
  | .mk _ _ _ k => k

/-- Set `commentBefore`. -/
def Node.setCB : Node → Str → Node
  | .mk r _ c k, cb => .mk r cb c k

/-- Replace a collection node's items. -/
def Node.withItems : Node → List NItem → Node
  | .mk r cb c (.collectionN fl _), its => .mk r cb c (.collectionN fl its)
  | n, _ => n

/-- The kind of CST value token of a document, as far as the composer
inspects it (`value.type === 'block-map' || value.type === 'block-seq'`). -/
inductive VType where
  | blockMap
  | blockSeq
  | flowCollection
  | blockScalar
  | scalarV
deriving DecidableEq, Repr

/-- The CST value token of a document span.  Modelled from the spec:
node-level value resolution is an external collaborator consumed as an
opaque "compose a node" operation, so the token carries the node it
resolves to. -/
structure ValueToken where
  vtype : VType
  offset : Nat
  composed : Node

/-- A CST document token: `{offset, start, value?, end?}`. -/
structure CSTDocTok where
  offset : Nat
  start : List SourceToken
  value : Option ValueToken
  endToks : List SourceToken

/-- Directive state: declared version, tag-handle mappings, and the
per-document explicit start/end markers. -/
structure DirState where
  version : Str
  tags : List (Str × Str)
  docStart : Bool
  docEnd : Bool
deriving DecidableEq, Repr

/-- Composition options relevant to the embedded core. -/
structure COpts where
  version : Option Str
  strict : Bool

/-- A composed document (`Document.Parsed`): contents, point-in-time
directives, comment fields, diagnostics, range and strict mode. -/
structure PDoc where
  contents : Option Node
  directives : DirState
  comment : Str
  commentBefore : Str
  errors : List PErr
  warnings : List PErr
  range : Nat × Nat × Nat
  strict : Bool

/-- Modelled from the spec: `Directives.add` delegates the directive
micro-syntax externally (the directives module is not under `src/`):
`%YAML <v>` updates the version, `%TAG <handle>` records a mapping, any
other line reports a `BAD_DIRECTIVE` diagnostic (as a warning) at a
relative offset within the token. -/
def DirState.add (d : DirState) (source : Str) :
    DirState × List (Nat × Str × Bool) :=
  if source.take 6 = "%YAML ".toList then
    ({ d with version := source.drop 6 }, [])
  else if source.take 5 = "%TAG ".toList then
    ({ d with tags := d.tags ++ [(source.drop 5, [])] }, [])
  else (d, [(0, "unknown directive".toList, true)])

/-- Modelled from the spec: `resolveProps` resolves the leading
decorative span relative to the first content-bearing token, recording
whether a directives-end (`doc-start`) marker was found, whether a
newline separates it from the content, and the offset after the span. -/
structure PropsRes where
  found : Bool
  hasNewline : Bool
  endPos : Nat

/-- Modelled from the spec: scan the `start` tokens for a `doc-start`
marker and a following newline, and accumulate the span length. -/
def resolveProps (start : List SourceToken) (offset : Nat) : PropsRes :=
  { found := start.any (fun t => t.stype == SrcType.docStart)
    hasNewline :=
      ((start.dropWhile (fun t => t.stype != SrcType.docStart)).drop 1).any
        (fun t => t.stype == SrcType.newlineT)
    endPos := offset + (start.map (fun t => t.source.length)).sum }

/-- Join comment texts with single newlines. -/
def joinNl : List Str → Str
  | [] => []
  | [x] => x
  | x :: xs => x ++ '\n' :: joinNl xs

/-- Result of resolving a trailing span. -/
structure EndRes where
  comment : Str
  offset : Nat

/-- Modelled from the spec: `resolveEnd` consumes the trailing
comment/blank span from the given offset, returning any comment found
(markers stripped) and the final offset. -/
def resolveEnd (endToks : List SourceToken) (offset : Nat)
    (_strict : Bool) : EndRes :=
  { comment := joinNl ((endToks.filter
      (fun t => t.stype == SrcType.commentT)).map
      (fun t => t.source.drop 1))
    offset := offset + (endToks.map (fun t => t.source.length)).sum }

/-- Modelled from the spec: the external node-composition facility,
consumed as an opaque operation — the value token carries its resolved
node. -/
def composeNode (v : ValueToken) (_props : PropsRes) : Node := v.composed

/-- Modelled from the spec: synthesize an empty node at the resolved
position when the document has no value token. -/
def composeEmptyNode (pos : Nat) : Node := .mk (pos, pos, pos) [] [] .scalarN

/-- Modelled from the spec: `new Document(undefined, opts)` with
`_directives` set creates an empty document whose directives are a
point-in-time snapshot of the stream state (fresh `docStart`/`docEnd`). -/
def Document.new (opts : COpts) (dirs : DirState) : PDoc :=
  { contents := none
    directives := { version := dirs.version, tags := dirs.tags, docStart := false, docEnd := false }
    comment := []
    commentBefore := []
    errors := []
    warnings := []
    range := (0, 0, 0)
    strict := opts.strict }

/-- `value && (value.type === 'block-map' || value.type === 'block-seq')`. -/
def isBlockCollection : Option ValueToken → Bool
  | some v => v.vtype == VType.blockMap || v.vtype == VType.blockSeq
  | none => false

/-- Message of the structural error of `composeDoc`. -/
def blockErrMsg : Str :=
  "Block collection cannot start on same line with directives-end marker".toList

/-- Message of the missing doc-start error of `Composer.next`. -/
def missingStartMsg : Str :=
  "Missing directives-end/doc-start indicator line".toList

/-- Message of the missing directives-end error of `Composer.end`. -/
def missingEndMsg : Str := "Missing directives-end indicator line".toList

/-- Message of the stray doc-end error of `Composer.next`. -/
def strayEndMsg : Str := "Unexpected doc-end without preceding document".toList

/-- `composeDoc(options, directives, {offset, start, value, end}, onError)`
from the source, with `onError` collected into the returned error list. -/
def composeDoc (opts : COpts) (directives : DirState) (d : CSTDocTok) :
    PDoc × List PErr :=
  let doc := Document.new opts directives
  let props := resolveProps d.start d.offset
  let doc1 := if props.found then
      { doc with directives := { doc.directives with docStart := true } }
    else doc
  let errs1 := if props.found && isBlockCollection d.value &&
      !props.hasNewline then
      [⟨(props.endPos, props.endPos + 1), .MISSING_CHAR, blockErrMsg⟩]
    else []
  let contents := match d.value with
    | some v => composeNode v props
    | none => composeEmptyNode props.endPos
  let contentEnd := contents.range.2.2
  let re := resolveEnd d.endToks contentEnd false
  let doc2 := { doc1 with
    contents := some contents
    comment := if re.comment ≠ [] then re.comment else doc1.comment
    range := (d.offset, contentEnd, re.offset) }
  (doc2, errs1)

/-- `getErrorPos(src)` from the source: normalize the four accepted
error-source shapes into a `[start, end)` pair. -/
inductive ErrorSource where
  | num : Nat → ErrorSource
  | pair : Nat → Nat → ErrorSource
  | range3 : Nat × Nat × Nat → ErrorSource
  | offSrc : Nat → Option Str → ErrorSource

/-- Normalize an error source; an `{offset, source?}` record ends at
`offset + source.length` when `source` is a string (even when empty) and
at `offset + 1` otherwise. -/
def getErrorPos : ErrorSource → Nat × Nat
  | .num n => (n, n + 1)
  | .pair a b => (a, b)
  | .range3 (a, b, _) => (a, b)
  | .offSrc o s =>
    (o, o + (match s with | some str => str.length | none => 1))

/-- Result of `parsePrelude`. -/
structure PreludeRes where
  comment : Str
  afterEmptyLine : Bool
deriving DecidableEq, Repr

/-- The loop of `parsePrelude(prelude)` from the source: `#` lines append
to the consolidated comment (an empty-line break becomes a double
newline; a bare `#` contributes a single space), a `%` line skips the
following entry unless that entry is a comment, and any other line
resets the after-comment flag and marks an empty-line break. -/
def parsePreludeGo : List Str → Str → Bool → Bool → PreludeRes
  | [], c, _, ael => ⟨c, ael⟩
  | line :: rest, c, atC, ael =>
    match line with
    | '#' :: tl =>
      parsePreludeGo rest
        (c ++ (if c = [] then [] else if ael then ['\n', '\n'] else ['\n'])
          ++ (if tl = [] then [' '] else tl)) true false
    | '%' :: _ =>
      if rest.head?.bind List.head? = some '#' then
        parsePreludeGo rest c false ael
      else
        match rest with
        | [] => ⟨c, ael⟩
        | _ :: rr => parsePreludeGo rr c false ael
    | _ => parsePreludeGo rest c false (if atC then ael else true)

/-- `parsePrelude(prelude)` from the source. -/
def parsePrelude (prelude : List Str) : PreludeRes :=
  parsePreludeGo prelude [] false false

/-- Prepend a comment to a node's `commentBefore`
(`it.commentBefore = cb ? comment\ncb : comment`). -/
def prependCB (n : Node) (comment : Str) : Node :=
  if n.commentBefore ≠ [] then
    n.setCB (comment ++ '\n' :: n.commentBefore)
  else n.setCB comment

/-- Update the first item of a collection's item list: the comment goes
onto the item's key when it is a pair, onto the item itself otherwise. -/
def updFirst : List NItem → Str → List NItem
  | [], _ => []
  | .plainI n :: rest, c => .plainI (prependCB n c) :: rest
  | .pairI kn :: rest, c => .pairI (prependCB kn c) :: rest

/-- The comment-attachment cascade of `Composer.decorate`. -/
def attachComment (doc : PDoc) (comment : Str) (afterDoc : Bool)
    (ael : Bool) : PDoc :=
  if afterDoc then
    { doc with comment := if doc.comment ≠ [] then
        doc.comment ++ '\n' :: comment else comment }
  else if ael || doc.directives.docStart || doc.contents.isNone then
    { doc with commentBefore := comment }
  else
    match doc.contents with
    | none => doc
    | some dc =>
      match dc.kind with
      | .collectionN false (it :: rest) =>
        { doc with
            contents := some (dc.withItems (updFirst (it :: rest) comment)) }
      | _ => { doc with contents := some (prependCB dc comment) }

/-- Composer state: current directives, the single buffered document, the
`atDirectives` flag, the prelude buffer and the stream-level diagnostic
lists, plus the (immutable) options. -/
structure CState where
  directives : DirState
  doc : Option PDoc
  atDirectives : Bool
  prelude : List Str
  errors : List PErr
  warnings : List PErr
  opts : COpts

/-- `Composer.decorate(doc, afterDoc)` from the source: attach the parsed
prelude comment, move the stream-level error/warning lists onto the
document (appending if after content, replacing otherwise), and drain the
prelude and stream-level lists. -/
def decorate (st : CState) (doc : PDoc) (afterDoc : Bool) :
    CState × PDoc :=
  let pr := parsePrelude st.prelude
  let doc1 := if pr.comment ≠ [] then
      attachComment doc pr.comment afterDoc pr.afterEmptyLine
    else doc
  let doc2 := if afterDoc then
      { doc1 with
          errors := doc1.errors ++ st.errors,
          warnings := doc1.warnings ++ st.warnings }
    else
      { doc1 with errors := st.errors, warnings := st.warnings }
  ({ st with prelude := [], errors := [], warnings := [] }, doc2)

/-- `Composer.streamInfo()` from the source. -/
def Composer.streamInfo (st : CState) :
    Str × DirState × List PErr × List PErr :=
  ((parsePrelude st.prelude).comment, st.directives, st.errors,
    st.warnings)

/-- The token alphabet of `Composer.next`. -/
inductive CToken where
  | directive : Nat → Str → CToken
  | document : CSTDocTok → CToken
  | byteOrderMark : CToken
  | space : CToken
  | comment : Nat → Str → CToken
  | newline : Nat → Str → CToken
  | errorTok : Nat → Option Str → Str → CToken
  | docEnd : Nat → Str → List SourceToken → CToken
  | unknown : Nat → Str → Str → CToken

/-- Rough JSON quoting of an error token's source, rendered inline in the
diagnostic message. -/
def jsonQuote (s : Str) : Str := '"' :: s ++ ['"']

/-- `Composer.next(token)` from the source: one token of the stream state
machine; returns the new state and the documents emitted by this step. -/
def Composer.next (st : CState) (t : CToken) : CState × List PDoc :=
  match t with
  | .directive offset source =>
    let (dirs, derrs) := st.directives.add source
    let pos0 := getErrorPos (.offSrc offset (some source))
    let mapped := derrs.map (fun e =>
      (((pos0.1 + e.1, pos0.2) : Nat × Nat), e.2.1, e.2.2))
    let newErrs := mapped.filterMap (fun e =>
      if e.2.2 then none else some (⟨e.1, .BAD_DIRECTIVE, e.2.1⟩ : PErr))
    let newWarns := mapped.filterMap (fun e =>
      if e.2.2 then some (⟨e.1, .BAD_DIRECTIVE, e.2.1⟩ : PErr) else none)
    ({ st with
        directives := dirs,
        errors := st.errors ++ newErrs,
        warnings := st.warnings ++ newWarns,
        prelude := st.prelude ++ [source],
        atDirectives := true }, [])
  | .document d =>
    let res := composeDoc st.opts st.directives d
    let st1 := { st with errors := st.errors ++ res.2 }
    let st2 := if st1.atDirectives && !res.1.directives.docStart then
        { st1 with
            errors := st1.errors ++ [⟨getErrorPos (.offSrc d.offset none),
              .MISSING_CHAR, missingStartMsg⟩] }
      else st1
    let dd := decorate st2 res.1 false
    let out := match dd.1.doc with
      | some prev => [prev]
      | none => []
    ({ dd.1 with doc := some dd.2, atDirectives := false }, out)
  | .byteOrderMark => (st, [])
  | .space => (st, [])
  | .comment _ source => ({ st with prelude := st.prelude ++ [source] }, [])
  | .newline _ source => ({ st with prelude := st.prelude ++ [source] }, [])
  | .errorTok offset source message =>
    let msg := match source with
      | some s => if s = [] then message
          else message ++ (": ".toList ++ jsonQuote s)
      | none => message
    let err : PErr :=
      ⟨getErrorPos (.offSrc offset source), .UNEXPECTED_TOKEN, msg⟩
    if st.atDirectives || st.doc.isNone then
      ({ st with errors := st.errors ++ [err] }, [])
    else
      ({ st with doc := st.doc.map (fun d =>
        { d with errors := d.errors ++ [err] }) }, [])
  | .docEnd offset source endToks =>
    match st.doc with
    | none =>
      ({ st with
          errors := st.errors ++ [⟨getErrorPos (.offSrc offset
            (some source)), .UNEXPECTED_TOKEN, strayEndMsg⟩] }, [])
    | some d0 =>
      let d1 := { d0 with
          directives := { d0.directives with docEnd := true } }
      let re := resolveEnd endToks (offset + source.length) d1.strict
      let dd := decorate st d1 true
      let d3 := if re.comment ≠ [] then
          { dd.2 with
              comment := if dd.2.comment ≠ [] then
                dd.2.comment ++ '\n' :: re.comment else re.comment }
        else dd.2
      let d4 := { d3 with range := (d3.range.1, d3.range.2.1, re.offset) }
      ({ dd.1 with doc := some d4 }, [])
  | .unknown offset source name =>
    ({ st with
        errors := st.errors ++ [⟨getErrorPos (.offSrc offset
          (some source)), .UNEXPECTED_TOKEN,
          "Unsupported token ".toList ++ name⟩] }, [])

/-- `Composer.end(forceDoc, endOffset)` from the source: flush a buffered
document, or synthesize an empty document when `forceDoc` is set. -/
def Composer.endStream (st : CState) (forceDoc : Bool) (endOffset : Nat) :
    CState × List PDoc :=
  match st.doc with
  | some d =>
    let dd := decorate st d true
    ({ dd.1 with doc := none }, [dd.2])
  | none =>
    if forceDoc then
      let doc := Document.new st.opts st.directives
      let st1 := if st.atDirectives then
          { st with
              errors := st.errors ++ [⟨getErrorPos (.num endOffset),
                .MISSING_CHAR, missingEndMsg⟩] }
        else st
      let doc1 := { doc with range := (0, endOffset, endOffset) }
      let dd := decorate st1 doc1 false
      (dd.1, [dd.2])
    else (st, [])

/-- Initial composer state
(`new Directives({version: options.version || '1.2'})`). -/
def Composer.init (opts : COpts) : CState :=
  { directives := { version := (match opts.version with
      | some v => if v = [] then "1.2".toList else v
      | none => "1.2".toList), tags := [], docStart := false, docEnd := false }
    doc := none
    atDirectives := false
    prelude := []
    errors := []
    warnings := []
    opts := opts }

/-- `Composer.compose(tokens, forceDoc, endOffset)`: feed the tokens in
order, then flush; returns the emitted documents in order, with the
final state. -/
def Composer.run (opts : COpts) (tokens : List CToken) (forceDoc : Bool)
    (endOffset : Nat) : List PDoc × CState :=
  let step := tokens.foldl (fun (acc : CState × List PDoc) t =>
    let r := Composer.next acc.1 t
    (r.1, acc.2 ++ r.2)) (Composer.init opts, [])
  let fin := Composer.endStream step.1 forceDoc endOffset
  (step.2 ++ fin.2, fin.1)

/-! ### Helper lemmas about decoration and assembly -/

theorem attachComment_errors (doc : PDoc) (c : Str) (b ael : Bool) :
    (attachComment doc c b ael).errors = doc.errors := by
  rw [attachComment]
  split
  · rfl
  · split
    · rfl
    · split
      · rfl
      · split <;> rfl

theorem attachComment_warnings (doc : PDoc) (c : Str) (b ael : Bool) :
    (attachComment doc c b ael).warnings = doc.warnings := by
  rw [attachComment]
  split
  · rfl
  · split
    · rfl
    · split
      · rfl
      · split <;> rfl

theorem attachComment_range (doc : PDoc) (c : Str) (b ael : Bool) :
    (attachComment doc c b ael).range = doc.range := by
  rw [attachComment]
  split
  · rfl
  · split
    · rfl
    · split
      · rfl
      · split <;> rfl

/-- Decoration with a drained prelude and drained stream lists: the
comment cascade is skipped, only the error/warning move remains. -/
theorem decorate_empty (st : CState) (doc : PDoc) (b : Bool)
    (hp : st.prelude = []) (he : st.errors = []) (hw : st.warnings = []) :
    decorate st doc b =
      (st, if b then doc else { doc with errors := [], warnings := [] }) := by
  obtain ⟨dirs, d0, atD, pl, er, wa, op⟩ := st
  simp only at hp he hw
  subst hp
  subst he
  subst hw
  cases b <;> simp [decorate, parsePrelude, parsePreludeGo]

theorem decorate_fst (st : CState) (doc : PDoc) (b : Bool) :
    (decorate st doc b).1 =
      { st with prelude := [], errors := [], warnings := [] } := rfl

theorem decorate_snd_errors_false (st : CState) (doc : PDoc) :
    ((decorate st doc false).2).errors = st.errors := by
  rw [decorate]
  simp only
  split
  · rename_i h
    exact absurd h (by decide)
  · split <;> rfl

theorem decorate_snd_range (st : CState) (doc : PDoc) (b : Bool) :
    ((decorate st doc b).2).range = doc.range := by
  rw [decorate]
  simp only
  split <;> split <;> simp [attachComment_range]

theorem composeDoc_docStart (opts : COpts) (dirs : DirState)
    (d : CSTDocTok) :
    (composeDoc opts dirs d).1.directives.docStart =
      (resolveProps d.start d.offset).found := by
  rw [composeDoc]
  cases h : (resolveProps d.start d.offset).found <;>
    simp [h, Document.new]

theorem composeDoc_range1 (opts : COpts) (dirs : DirState)
    (d : CSTDocTok) :
    (composeDoc opts dirs d).1.range.1 = d.offset := by
  rw [composeDoc]

theorem composeDoc_errs_msgs (opts : COpts) (dirs : DirState)
    (d : CSTDocTok) :
    ∀ er ∈ (composeDoc opts dirs d).2, er.message = blockErrMsg := by
  rw [composeDoc]
  intro er her
  simp only at her
  split at her
  · rcases List.mem_singleton.mp her with h
    rw [h]
  · cases her

/-! ### C7: decoration idempotence -/

/-- A document that already carries an error, as it stands after a first
decoration pass. -/
def c7doc : PDoc :=
  { contents := none
    directives := ⟨"1.2".toList, [], false, false⟩
    comment := []
    commentBefore := []
    errors := [⟨(0, 1), .UNEXPECTED_TOKEN, "x".toList⟩]
    warnings := []
    range := (0, 0, 0)
    strict := true }

/-- C7 counterexample: with a drained prelude and drained stream-level
lists, a second `decorate` with `afterContent = false` replaces the
document's non-empty error list with the empty stream list — it is not a
no-op. -/
theorem decorate_again_not_noop :
    (Composer.init ⟨none, true⟩).prelude = [] ∧
    (Composer.init ⟨none, true⟩).errors = [] ∧
    (Composer.init ⟨none, true⟩).warnings = [] ∧
    (decorate (Composer.init ⟨none, true⟩) c7doc false).2.errors = [] ∧
    c7doc.errors ≠ [] :=
  ⟨rfl, rfl, rfl, rfl, by simp [c7doc]⟩

/-- C7 amended: decoration with a drained prelude (and drained
stream-level lists) leaves the comment fields and contents unchanged and
leaves the state unchanged; with `afterContent = true` it is a full no-op
on the document as well, while with `afterContent = false` it replaces
the document's error and warning lists by the (empty) drained stream
lists, so it is a no-op only when those lists were already empty. -/
theorem decorate_drained (st : CState) (doc : PDoc) (b : Bool)
    (hp : st.prelude = []) (he : st.errors = []) (hw : st.warnings = []) :
    (decorate st doc b).1 = st ∧
    ((decorate st doc b).2).comment = doc.comment ∧
    ((decorate st doc b).2).commentBefore = doc.commentBefore ∧
    ((decorate st doc b).2).contents = doc.contents ∧
    (b = true → (decorate st doc b).2 = doc) ∧
    (b = false → (decorate st doc b).2 =
      { doc with errors := [], warnings := [] }) := by
  rw [decorate_empty st doc b hp he hw]
  cases b <;> simp

/-- Witness for C7 amended: the `afterContent = true` pass on `c7doc` is
a full no-op. -/
theorem decorate_drained_witness :
    (Composer.init ⟨none, true⟩).prelude = [] ∧
    (decorate (Composer.init ⟨none, true⟩) c7doc true).2 = c7doc :=
  ⟨rfl,
    (decorate_drained (Composer.init ⟨none, true⟩) c7doc true rfl rfl
      rfl).2.2.2.2.1 rfl⟩

/-! ### C8: stray doc-end -/

/-- C8: a `doc-end` token while no document is buffered records exactly
one stray-end-marker UNEXPECTED_TOKEN error in the stream-level error
list, composes no document, and changes nothing else in the composer
state. -/
theorem next_docEnd_no_doc (st : CState) (offset : Nat) (source : Str)
    (endToks : List SourceToken) (h : st.doc = none) :
    Composer.next st (.docEnd offset source endToks) =
      ({ st with
          errors := st.errors ++ [⟨(offset, offset + source.length),
            .UNEXPECTED_TOKEN, strayEndMsg⟩] }, []) := by
  simp [Composer.next, h, getErrorPos]

/-- Witness for C8 on the initial state. -/
theorem next_docEnd_no_doc_witness :
    (Composer.init ⟨none, true⟩).doc = none ∧
    Composer.next (Composer.init ⟨none, true⟩)
      (.docEnd 5 "...".toList []) =
      ({ Composer.init ⟨none, true⟩ with
          errors := (Composer.init ⟨none, true⟩).errors ++
            [⟨(5, 5 + "...".toList.length), .UNEXPECTED_TOKEN,
              strayEndMsg⟩] }, []) :=
  ⟨rfl, next_docEnd_no_doc (Composer.init ⟨none, true⟩) 5 "...".toList []
    rfl⟩

/-! ### C9: explicit start and the block-collection structural error -/

/-- C9: when the leading-span resolution finds a directives-end marker,
the assembled document is marked as having an explicit start; if the
value token is a block-style map or sequence and no newline separates the
marker from it, a MISSING_CHAR structural error is put on the collected
`onError` list — never thrown: `composeDoc` is total and still returns a
document whose range starts at the span's offset. -/
theorem composeDoc_explicit_start (opts : COpts) (dirs : DirState)
    (d : CSTDocTok)
    (hfound : (resolveProps d.start d.offset).found = true) :
    (composeDoc opts dirs d).1.directives.docStart = true ∧
    (composeDoc opts dirs d).1.range.1 = d.offset ∧
    (isBlockCollection d.value = true →
      (resolveProps d.start d.offset).hasNewline = false →
      (⟨((resolveProps d.start d.offset).endPos,
        (resolveProps d.start d.offset).endPos + 1), .MISSING_CHAR,
        blockErrMsg⟩ : PErr) ∈ (composeDoc opts dirs d).2) := by
  refine ⟨?_, composeDoc_range1 opts dirs d, ?_⟩
  · rw [composeDoc_docStart, hfound]
  · intro hb hn
    rw [composeDoc]
    simp [hfound, hb, hn]

/-- Witness for C9 on a concrete document span: explicit start marker,
block-map value on the same line. -/
theorem composeDoc_explicit_start_witness :
    (resolveProps [⟨.docStart, 0, "---".toList⟩] 0).found = true ∧
    isBlockCollection (some ⟨.blockMap, 4,
      .mk (4, 9, 9) [] [] .scalarN⟩) = true ∧
    (resolveProps [⟨.docStart, 0, "---".toList⟩] 0).hasNewline = false ∧
    (composeDoc ⟨none, true⟩
      ⟨"1.2".toList, [], false, false⟩
      ⟨0, [⟨.docStart, 0, "---".toList⟩],
        some ⟨.blockMap, 4, .mk (4, 9, 9) [] [] .scalarN⟩,
        []⟩).1.directives.docStart = true :=
  ⟨by decide, by decide, by decide,
    (composeDoc_explicit_start ⟨none, true⟩
      ⟨"1.2".toList, [], false, false⟩
      ⟨0, [⟨.docStart, 0, "---".toList⟩],
        some ⟨.blockMap, 4, .mk (4, 9, 9) [] [] .scalarN⟩, []⟩
      (by decide)).1⟩

/-! ### C6: lone comment with forceDoc -/

/-- C6 counterexample: for the lone comment token with text `"# hello"`
and `forceDoc` at end offset 7, the synthesized document's leading
comment is `" hello"`: the `'#'` marker is stripped but the leading
space is retained, not collapsed. -/
theorem end_comment_space_counterexample :
    (Composer.run ⟨none, true⟩ [.comment 0 "# hello".toList] true 7).1.map
      (fun d => (d.commentBefore, d.range)) =
      [(" hello".toList, (0, 7, 7))] ∧
    " hello".toList ≠ "hello".toList :=
  ⟨rfl, by decide⟩

/-- C6 amended: a lone comment token whose text is `'#'` followed by
`body`, then end-of-stream with `forceDoc`, yields exactly one
synthesized error-free document whose leading comment is `body` verbatim
(only the marker is stripped; an empty `body` contributes a single
space), and whose range is `[0, endOffset, endOffset]`. -/
theorem end_forceDoc_comment (body : Str) (e : Nat) :
    ∃ doc : PDoc,
      (Composer.run ⟨none, true⟩ [.comment 0 ('#' :: body)] true e).1 =
        [doc] ∧
      doc.commentBefore = (if body = [] then [' '] else body) ∧
      doc.range = (0, e, e) ∧
      doc.errors = [] := by
  cases body with
  | nil => exact ⟨_, rfl, rfl, rfl, rfl⟩
  | cons a tl => exact ⟨_, rfl, rfl, rfl, rfl⟩

/-! ### C5: directive followed by two documents -/

/-- A directive token only updates the directives, the diagnostic lists
and the prelude, sets `atDirectives`, and emits no document. -/
theorem next_directive_ex (st : CState) (o : Nat) (s : Str) :
    ∃ dirs E W,
      Composer.next st (.directive o s) =
        ({ st with
            directives := dirs,
            errors := st.errors ++ E,
            warnings := st.warnings ++ W,
            prelude := st.prelude ++ [s],
            atDirectives := true }, []) :=
  ⟨_, _, _, rfl⟩

/-- A document token composes a new buffered document (range anchored at
the document's offset, errors as collected, with the missing-start error
exactly when still at directives and no explicit start was found), emits
the previously buffered document, clears `atDirectives` and drains the
prelude and the stream-level lists. -/
theorem next_document_parts (st : CState) (d : CSTDocTok) :
    ∃ newdoc : PDoc,
      Composer.next st (.document d) =
        ({ st with
            doc := some newdoc
            atDirectives := false
            prelude := []
            errors := []
            warnings := [] },
          match st.doc with | some p => [p] | none => []) ∧
      newdoc.range.1 = d.offset ∧
      newdoc.errors = st.errors ++ (composeDoc st.opts st.directives d).2
        ++ (if st.atDirectives &&
              !(resolveProps d.start d.offset).found then
            [⟨(d.offset, d.offset + 1), .MISSING_CHAR, missingStartMsg⟩]
          else []) := by
  have hds := composeDoc_docStart st.opts st.directives d
  cases hcond : (st.atDirectives &&
      !(resolveProps d.start d.offset).found) with
  | false =>
    refine ⟨(decorate { st with errors := st.errors ++
        (composeDoc st.opts st.directives d).2 }
      (composeDoc st.opts st.directives d).1 false).2, ?_, ?_, ?_⟩
    · simp only [Composer.next, hds, hcond, Bool.false_eq_true, if_false,
        decorate_fst]
    · rw [decorate_snd_range, composeDoc_range1]
    · rw [decorate_snd_errors_false]
      simp
  | true =>
    refine ⟨(decorate { st with errors := st.errors ++
        (composeDoc st.opts st.directives d).2 ++
        [⟨(d.offset, d.offset + 1), .MISSING_CHAR, missingStartMsg⟩] }
      (composeDoc st.opts st.directives d).1 false).2, ?_, ?_, ?_⟩
    · simp only [Composer.next, hds, hcond, if_true, decorate_fst]
      rfl
    · rw [decorate_snd_range, composeDoc_range1]
    · rw [decorate_snd_errors_false]
      simp

/-- Flushing a stream whose buffered document is `d`. -/
theorem endStream_some (st : CState) (f : Bool) (e : Nat) (d : PDoc)
    (h : st.doc = some d) :
    Composer.endStream st f e =
      ({ (decorate st d true).1 with doc := none },
        [(decorate st d true).2]) := by
  simp [Composer.endStream, h]

/-- C5 counterexample: for the stream [directive, document-with-start,
document-without-start], the run yields two documents and the second
document's error list is empty — no MISSING_CHAR missing-start error is
reported for the second document even though it lacks an explicit start
marker. -/
theorem compose_second_doc_no_missing_error :
    ((Composer.run ⟨none, true⟩
      [.directive 0 "%YAML 1.2".toList,
       .document ⟨10, [⟨.docStart, 10, "---".toList⟩], none, []⟩,
       .document ⟨20, [], none, []⟩] false 0).1.map
      (fun d => (d.errors, d.range.1))) = [([], 10), ([], 20)] ∧
    (resolveProps ([] : List SourceToken) 20).found = false :=
  ⟨rfl, rfl⟩

/-- C5 amended: for a stream [directive, document, document] with no
intervening end marker the composer yields exactly two documents in
input order; the MISSING_CHAR missing-start error belongs to the FIRST
document (composed while directives are pending) when it lacks an
explicit start marker, while the second document never receives a
missing-start error, whether or not it has one. -/
theorem compose_directive_two_docs (dOff : Nat) (dsrc : Str)
    (d1 d2 : CSTDocTok) :
    ∃ doc1 doc2 : PDoc,
      (Composer.run ⟨none, true⟩
        [.directive dOff dsrc, .document d1, .document d2] false 0).1 =
        [doc1, doc2] ∧
      doc1.range.1 = d1.offset ∧ doc2.range.1 = d2.offset ∧
      ((resolveProps d1.start d1.offset).found = false →
        (⟨(d1.offset, d1.offset + 1), .MISSING_CHAR, missingStartMsg⟩ :
          PErr) ∈ doc1.errors) ∧
      (∀ er ∈ doc2.errors, er.message ≠ missingStartMsg) := by
  obtain ⟨dirs1, E1, W1, h1⟩ :=
    next_directive_ex (Composer.init ⟨none, true⟩) dOff dsrc
  obtain ⟨doc1, h2, hr1, he1⟩ := next_document_parts
    (Composer.next (Composer.init ⟨none, true⟩)
      (.directive dOff dsrc)).1 d1
  obtain ⟨doc2, h3, hr2, he2⟩ := next_document_parts
    (Composer.next (Composer.next (Composer.init ⟨none, true⟩)
      (.directive dOff dsrc)).1 (.document d1)).1 d2
  have hat1 : (Composer.next (Composer.init ⟨none, true⟩)
      (.directive dOff dsrc)).1.atDirectives = true := by rw [h1]
  have herr1 : (Composer.next (Composer.init ⟨none, true⟩)
      (.directive dOff dsrc)).1.errors = E1 := by
    rw [h1]
    simp [Composer.init]
  have hdoc1 : (Composer.next (Composer.init ⟨none, true⟩)
      (.directive dOff dsrc)).1.doc = none := by
    rw [h1]
    rfl
  have hat2 : (Composer.next (Composer.next (Composer.init ⟨none, true⟩)
      (.directive dOff dsrc)).1 (.document d1)).1.atDirectives = false := by
    rw [h2]
  have herr2 : (Composer.next (Composer.next (Composer.init ⟨none, true⟩)
      (.directive dOff dsrc)).1 (.document d1)).1.errors = [] := by
    rw [h2]
  have hdoc2 : (Composer.next (Composer.next (Composer.init ⟨none, true⟩)
      (.directive dOff dsrc)).1 (.document d1)).1.doc = some doc1 := by
    rw [h2]
  have hout2 : (Composer.next (Composer.next (Composer.init ⟨none, true⟩)
      (.directive dOff dsrc)).1 (.document d1)).2 = [] := by
    rw [h2, hdoc1]
  refine ⟨doc1, doc2, ?_, hr1, hr2, ?_, ?_⟩
  · simp only [Composer.run, List.foldl]
    rw [h3]
    simp only [hdoc2]
    rw [endStream_some _ false 0 doc2 rfl]
    rw [decorate_empty _ doc2 true rfl rfl rfl]
    simp only [hout2]
    simp [h1]
  · intro hfound
    rw [he1, hat1, hfound]
    simp
  · intro er her
    rw [he2, hat2, herr2] at her
    simp at her
    have := composeDoc_errs_msgs
      (Composer.next (Composer.next (Composer.init ⟨none, true⟩)
        (.directive dOff dsrc)).1 (.document d1)).1.opts
      (Composer.next (Composer.next (Composer.init ⟨none, true⟩)
        (.directive dOff dsrc)).1 (.document d1)).1.directives d2 er her
    rw [this]
    decide

/-- Witness for C5 amended: both documents lack a start marker; the run
yields two documents and the missing-start error sits on the first. -/
theorem compose_directive_two_docs_witness :
    ∃ doc1 doc2 : PDoc,
      (Composer.run ⟨none, true⟩
        [.directive 0 "%YAML 1.2".toList,
         .document ⟨10, [], none, []⟩,
         .document ⟨20, [], none, []⟩] false 0).1 = [doc1, doc2] ∧
      (⟨(10, 11), .MISSING_CHAR, missingStartMsg⟩ : PErr) ∈
        doc1.errors := by
  obtain ⟨doc1, doc2, hrun, h1, h2, hmem, hno⟩ :=
    compose_directive_two_docs 0 "%YAML 1.2".toList
      ⟨10, [], none, []⟩ ⟨20, [], none, []⟩
  exact ⟨doc1, doc2, hrun, hmem rfl⟩

end YamlComp